import Mathlib

/-!
Verification of the BCS (Binary Canonical Serialization) encoder of
`iotaledger/bcs-go` against its natural-language specification.

The Go encoder is a recursive reflective walker that writes bytes to an
`io.Writer` and stores the first error in the encoder (`e.err`); all writes go
through `Encoder.Write`, which is a no-op once `e.err` is set.  The shallow
embedding below translates this imperative writer into a pure function: every
encoding routine returns the list of bytes it appends to the stream together
with an optional error (`EncOut`).  Sequential composition (`EncOut.seq`)
appends the second routine's bytes only when the first one succeeded, which is
exactly the behavior of the sticky-error writer.  Machine integers are modeled
as `Nat`/`Int` with explicit wrap-around arithmetic (`% 2^w`); bytes are `Nat`
values `< 256`.

Go `reflect` values are modeled by the inductive `Value`; the process-wide
enum registry (`EnumTypes`) and the `InterfaceIsEnumByDefault` configuration
flag form the environment `EncEnv`.  Custom encoders (`CustomEncoders`,
`Encodable`, `Writable`, `BCSType`) are not registered in the model, matching
an engine with empty customization registries; the type-info cache is a pure
memoization of the type walk and has no observable effect, so it is not
modeled.
-/

/-! ## Wire primitives -/

/-- Go `byte(x)`: truncation of an integer to its low 8 bits. -/
def toByte (n : Nat) : Nat := n % 256

/-- Model of `Encoder.WriteBool`: `true ↦ 0x01`, `false ↦ 0x00`. -/
def writeBoolBytes (b : Bool) : List Nat := if b then [1] else [0]

/-- Little-endian byte string of `n` (low byte first) on `w` bytes,
as produced by `binary.LittleEndian.PutUintN` / the `byte(v >> 8k)` writes. -/
def natLE (w : Nat) (n : Nat) : List Nat := (List.range w).map fun i => n / 256 ^ i % 256

/-- Little-endian two's-complement byte string of the integer `n` on `w` bytes:
Go's `WriteIntN` after the `intN → uintN` bit reinterpretation. -/
def intLE (w : Nat) (n : Int) : List Nat := natLE w (n % ((2 : Int) ^ (8 * w))).toNat

/-- Model of `Encoder.WriteCompactUint64`, translated branch by branch from the Go
source: a 10-way `switch` on the magnitude of `v`, each branch emitting
`byte(v | 0x80), byte((v>>7) | 0x80), …, byte(v >> 7k)`. -/
def compactUint64Bytes (v : Nat) : List Nat :=
  if v < 0x80 then [toByte v]
  else if v < 0x4000 then [toByte (v ||| 0x80), toByte (v >>> 7)]
  else if v < 0x200000 then
    [toByte (v ||| 0x80), toByte ((v >>> 7) ||| 0x80), toByte (v >>> 14)]
  else if v < 0x10000000 then
    [toByte (v ||| 0x80), toByte ((v >>> 7) ||| 0x80), toByte ((v >>> 14) ||| 0x80),
      toByte (v >>> 21)]
  else if v < 0x800000000 then
    [toByte (v ||| 0x80), toByte ((v >>> 7) ||| 0x80), toByte ((v >>> 14) ||| 0x80),
      toByte ((v >>> 21) ||| 0x80), toByte (v >>> 28)]
  else if v < 0x40000000000 then
    [toByte (v ||| 0x80), toByte ((v >>> 7) ||| 0x80), toByte ((v >>> 14) ||| 0x80),
      toByte ((v >>> 21) ||| 0x80), toByte ((v >>> 28) ||| 0x80), toByte (v >>> 35)]
  else if v < 0x2000000000000 then
    [toByte (v ||| 0x80), toByte ((v >>> 7) ||| 0x80), toByte ((v >>> 14) ||| 0x80),
      toByte ((v >>> 21) ||| 0x80), toByte ((v >>> 28) ||| 0x80), toByte ((v >>> 35) ||| 0x80),
      toByte (v >>> 42)]
  else if v < 0x100000000000000 then
    [toByte (v ||| 0x80), toByte ((v >>> 7) ||| 0x80), toByte ((v >>> 14) ||| 0x80),
      toByte ((v >>> 21) ||| 0x80), toByte ((v >>> 28) ||| 0x80), toByte ((v >>> 35) ||| 0x80),
      toByte ((v >>> 42) ||| 0x80), toByte (v >>> 49)]
  else if v < 0x8000000000000000 then
    [toByte (v ||| 0x80), toByte ((v >>> 7) ||| 0x80), toByte ((v >>> 14) ||| 0x80),
      toByte ((v >>> 21) ||| 0x80), toByte ((v >>> 28) ||| 0x80), toByte ((v >>> 35) ||| 0x80),
      toByte ((v >>> 42) ||| 0x80), toByte ((v >>> 49) ||| 0x80), toByte (v >>> 56)]
  else
    [toByte (v ||| 0x80), toByte ((v >>> 7) ||| 0x80), toByte ((v >>> 14) ||| 0x80),
      toByte ((v >>> 21) ||| 0x80), toByte ((v >>> 28) ||| 0x80), toByte ((v >>> 35) ||| 0x80),
      toByte ((v >>> 42) ||| 0x80), toByte ((v >>> 49) ||| 0x80), toByte ((v >>> 56) ||| 0x80),
      toByte (v >>> 63)]

/-- Model of `Encoder.WriteLen`: lengths are written as `WriteCompactUint64(uint64(length))`. -/
def writeLenBytes (length : Nat) : List Nat := compactUint64Bytes length

/-- Model of `Encoder.WriteEnumIdx`: enum variant indices are written as
`WriteCompactUint64(uint64(variantIdx))`. -/
def writeEnumIdxBytes (variantIdx : Nat) : List Nat := compactUint64Bytes variantIdx

/-- The canonical (minimum-length) ULEB128 encoding, written from the wire
format's definition: seven payload bits per byte, low group first, high bit of
a byte set exactly when more bytes follow. -/
def uleb128 (v : Nat) : List Nat :=
  if v < 0x80 then [v] else (v % 0x80 + 0x80) :: uleb128 (v / 0x80)
decreasing_by exact Nat.div_lt_self (by omega) (by omega)

/-- Decoder of the ULEB128 format (any byte string using seven payload bits
per byte with the high bit as continuation, canonical or not): returns the
encoded number when the whole input is one such encoding. -/
def ulebRead : List Nat → Option Nat
  | [] => none
  | b :: rest =>
    if b < 0x80 then (if rest = [] then some b else none)
    else (ulebRead rest).map fun v => v * 0x80 + (b % 0x80)

/-- The shape shared by the branches of `WriteCompactUint64`: `k` continuation
bytes followed by one final byte. -/
def compactView (k v : Nat) : List Nat :=
  ((List.range k).map fun i => toByte ((v >>> (7 * i)) ||| 0x80)) ++ [toByte (v >>> (7 * k))]

/-! ## Integer kinds and width conversion

`reflect.Kind` restricted to the integer kinds (`iGo`/`uGo` are Go's `int` and
`uint`, which the encoder writes as 8 bytes via `WriteInt64`/`WriteUint64`). -/

inductive IntKind where
  | i8 | i16 | i32 | i64 | iGo | u8 | u16 | u32 | u64 | uGo
deriving DecidableEq, Repr

def IntKind.width : IntKind → Nat
  | .i8 => 8 | .i16 => 16 | .i32 => 32 | .i64 => 64 | .iGo => 64
  | .u8 => 8 | .u16 => 16 | .u32 => 32 | .u64 => 64 | .uGo => 64

def IntKind.signed : IntKind → Bool
  | .i8 | .i16 | .i32 | .i64 | .iGo => true
  | .u8 | .u16 | .u32 | .u64 | .uGo => false

/-- Go integer conversion `T(v)` for an integer type `T` of kind `k`:
truncation to the low `width` bits, reinterpreted in two's complement when the
target kind is signed.  Unsigned results are the `Int` in `[0, 2^w)`, signed
results the `Int` in `[-2^(w-1), 2^(w-1))`. -/
def goCast (k : IntKind) (v : Int) : Int :=
  if k.signed then (v + 2 ^ (k.width - 1)) % 2 ^ k.width - 2 ^ (k.width - 1)
  else v % 2 ^ k.width

/-- The byte string written by `WriteInt8/16/32/64` / `WriteUint8/16/32/64`
for a value of kind `k`: the value in little-endian on `width/8` bytes. -/
def kindLE (k : IntKind) (n : Int) : List Nat := intLE (k.width / 8) n

/-! ## Type options and values

The `TypeOptions` record itself is defined in a file that is not part of the
provided sources (only its uses in the encoder are); the fields below are the
ones the encoder reads: `UnderlyingType`, `IsCompactInt`, `LenSizeInBytes`,
`InterfaceIsNotEnum`, `ArrayElement` (a pair of `AsByteArray` and element
`TypeOptions`), `MapKey` and `MapValue`.  The zero value of the record (all
fields unset) is the default; `typeOptions.Update(fromTag)` applied to the
zero value yields the tag options themselves (spec: tag-derived options win),
so `encodeValue` below resolves the effective options as
`typeOptionsFromTag.getD TypeOptions.default`. -/

inductive TypeOptions where
  | mk (underlyingType : Option IntKind) (isCompactInt : Bool) (lenSizeInBytes : Nat)
      (interfaceIsNotEnum : Bool) (arrayElement : Option (Bool × TypeOptions))
      (mapKey : Option TypeOptions) (mapValue : Option TypeOptions)

def TypeOptions.underlyingType : TypeOptions → Option IntKind
  | .mk u _ _ _ _ _ _ => u

def TypeOptions.isCompactInt : TypeOptions → Bool
  | .mk _ c _ _ _ _ _ => c

def TypeOptions.lenSizeInBytes : TypeOptions → Nat
  | .mk _ _ l _ _ _ _ => l

def TypeOptions.interfaceIsNotEnum : TypeOptions → Bool
  | .mk _ _ _ i _ _ _ => i

def TypeOptions.arrayElement : TypeOptions → Option (Bool × TypeOptions)
  | .mk _ _ _ _ a _ _ => a

def TypeOptions.mapKey : TypeOptions → Option TypeOptions
  | .mk _ _ _ _ _ k _ => k

def TypeOptions.mapValue : TypeOptions → Option TypeOptions
  | .mk _ _ _ _ _ _ v => v

/-- The zero value of the Go `TypeOptions` record. -/
def TypeOptions.default : TypeOptions := .mk none false 0 false none none none

/-- Per-field options (`FieldOptions` embeds `TypeOptions` and adds the
field-level flags).  `ExportAnonymousField` and the unexported-field handling
are omitted: the modeled structs have only exported fields. -/
structure FieldOptions where
  typeOptions : TypeOptions
  skip : Bool
  optional : Bool
  asByteArray : Bool

/-- What `encodeArray` needs to know about the element type: whether its kind
is `reflect.Uint8`, and whether `checkTypeCustomizations` reports a
customization for it.  With the customization registries empty (no
`CustomEncoders`, no `Encodable`/`Writable`/`BCSType` implementations), the
only customization the type walk can report is being a struct-enum. -/
inductive ElemKind where
  | u8 | structEnum | other
deriving DecidableEq, Repr

def ElemKind.hasCustomizations : ElemKind → Bool
  | .structEnum => true
  | _ => false

/-- Model of the Go `reflect.Value`s the encoder walks.  Nullable kinds
(pointer, interface, map, slice) carry an `Option`; `none` is Go `nil`.
An interface value carries the interface type's identity `tid` and, when
non-nil, the concrete dynamic type's identity and the underlying value.
The identity `0` (`noneTypeId`) is reserved for `bcs.None`.  A `varray`
carries `CanAddr()` of the corresponding `reflect.Value`. -/
inductive Value where
  | vbool (b : Bool)
  | vint (k : IntKind) (n : Int)
  | vuint (k : IntKind) (n : Nat)
  | vstr (s : List Nat)
  | vslice (ek : ElemKind) (elems : Option (List Value))
  | varray (ek : ElemKind) (canAddr : Bool) (elems : List Value)
  | vmap (entries : Option (List (Value × Value)))
  | vstruct (fields : List (FieldOptions × Value))
  | vstructEnum (fields : List Value)
  | viface (tid : Nat) (inner : Option (Nat × Value))
  | vptr (inner : Option Value)

/-- Kinds `reflect.Ptr`, `reflect.Interface`, `reflect.Map`, `reflect.Slice`:
the nullable kinds tested by `encodeStruct` and `getStructEnumVariantIdx`. -/
def Value.isNilableKind : Value → Bool
  | .vptr _ | .viface _ _ | .vmap _ | .vslice _ _ => true
  | _ => false

def Value.isNil : Value → Bool
  | .vptr none | .viface _ none | .vmap none | .vslice _ none => true
  | _ => false

def Value.isIfaceKind : Value → Bool
  | .viface _ _ => true
  | _ => false

def Value.isSliceKind : Value → Bool
  | .vslice _ _ => true
  | _ => false

/-- The raw byte stored in a `uint8` element, as read by `v.Bytes()`. -/
def Value.asByte : Value → Nat
  | .vuint _ n => n % 256
  | _ => 0

/-! ## Encoder state and errors -/

inductive EncErr where
  | nilValue
  | nilTopValue
  | nilMap
  | nilInterface
  | sliceLenExceeds2Bytes
  | sliceLenExceeds4Bytes
  | mapLenExceeds2Bytes
  | mapLenExceeds4Bytes
  | invalidSizeType
  | nonOptionalNilField
  | multipleEnumVariantsSet
  | noEnumVariantSet
  | nonNullableEnumField
  | valueOutOfRange
  | interfaceNotEnum
  | noneVariantNotRegistered
  | variantNotRegistered
  | unexpectedKind
deriving DecidableEq, Repr

/-- The result of one encoding routine: the bytes it appends to the output
stream and the error it reports.  The Go encoder threads an `io.Writer` plus a
sticky `e.err`; since every write goes through `Encoder.Write`, which is a
no-op once `e.err` is set, a routine is equivalent to the byte string it
appends on its own plus its error. -/
structure EncOut where
  bytes : List Nat
  err : Option EncErr
deriving DecidableEq, Repr

def encOk (bs : List Nat) : EncOut := ⟨bs, none⟩

def encFail (e : EncErr) : EncOut := ⟨[], some e⟩

/-- Sequential composition under the sticky error: the second routine runs
(and its bytes reach the stream) only when the first one succeeded. -/
def EncOut.seq (r s : EncOut) : EncOut :=
  match r.err with
  | some _ => r
  | none => ⟨r.bytes ++ s.bytes, s.err⟩

/-- Model of the `switch typeOpts.LenSizeInBytes` ceiling check of `encodeSlice`
(`Len2Bytes = 2`, `Len4Bytes = 4`; `0` means plain ULEB with no ceiling). -/
def sliceLenCheck (lenSizeInBytes length : Nat) : Option EncErr :=
  match lenSizeInBytes with
  | 0 => none
  | 2 => if length > 0xFFFF then some .sliceLenExceeds2Bytes else none
  | 4 => if length > 0xFFFFFFFF then some .sliceLenExceeds4Bytes else none
  | _ => some .invalidSizeType

/-- The ceiling check of `encodeMap`. -/
def mapLenCheck (lenSizeInBytes length : Nat) : Option EncErr :=
  match lenSizeInBytes with
  | 0 => none
  | 2 => if length > 0xFFFF then some .mapLenExceeds2Bytes else none
  | 4 => if length > 0xFFFFFFFF then some .mapLenExceeds4Bytes else none
  | _ => some .invalidSizeType

/-! ## Number encoding with an underlying type -/

/-- The natural-width `switch` of `Encoder.encodeInt` (the `default` branch is
a Go `panic`; it is unreachable for values whose kind is signed). -/
def encodeIntNatural (k : IntKind) (n : Int) : EncOut :=
  match k with
  | .i8 => encOk (intLE 1 n)
  | .i16 => encOk (intLE 2 n)
  | .i32 => encOk (intLE 4 n)
  | .i64 | .iGo => encOk (intLE 8 n)
  | _ => encFail .unexpectedKind

/-- The natural-width `switch` of `Encoder.encodeUint`. -/
def encodeUintNatural (k : IntKind) (n : Nat) : EncOut :=
  match k with
  | .u8 => encOk (natLE 1 n)
  | .u16 => encOk (natLE 2 n)
  | .u32 => encOk (natLE 4 n)
  | .u64 | .uGo => encOk (natLE 8 n)
  | _ => encFail .unexpectedKind

/-- Model of `convertEncodeNumber2[To, From]`: convert `v` to the target kind, error
unless converting back to the source kind restores `v`, else write the
converted value at the target's width.  `fromK` is the `From` type of the Go
generic instantiation: `i64` when called with `v.Int()`, `u64` with
`v.Uint()`. -/
def convertEncodeNumber2 (fromK : IntKind) (v : Int) (toK : IntKind) : EncOut :=
  let converted := goCast toK v
  if goCast fromK converted ≠ v then encFail .valueOutOfRange
  else encOk (kindLE toK converted)

/-- Model of `convertEncodeNumber`: dispatch on the target kind to the typed write
callback (`reflect.Int64` and `reflect.Int` both use `WriteInt64`, likewise
for the unsigned pair).  The `default` branch (invalid underlying type) is
unreachable here because `IntKind` only has integer kinds. -/
def convertEncodeNumber (fromK : IntKind) (v : Int) (encodedType : IntKind) : EncOut :=
  match encodedType with
  | .i8 => convertEncodeNumber2 fromK v .i8
  | .i16 => convertEncodeNumber2 fromK v .i16
  | .i32 => convertEncodeNumber2 fromK v .i32
  | .i64 | .iGo => convertEncodeNumber2 fromK v .i64
  | .u8 => convertEncodeNumber2 fromK v .u8
  | .u16 => convertEncodeNumber2 fromK v .u16
  | .u32 => convertEncodeNumber2 fromK v .u32
  | .u64 | .uGo => convertEncodeNumber2 fromK v .u64

/-- Model of `Encoder.encodeInt`: use the underlying type when it is set and differs
from the value's kind (`v.Int()` widens every signed value to `int64`). -/
def encodeInt (k : IntKind) (n : Int) (encodedType : Option IntKind) : EncOut :=
  match encodedType with
  | some et => if et ≠ k then convertEncodeNumber .i64 n et else encodeIntNatural k n
  | none => encodeIntNatural k n

/-- Model of `Encoder.encodeUint`. -/
def encodeUint (k : IntKind) (n : Nat) (encodedType : Option IntKind) : EncOut :=
  match encodedType with
  | some et => if et ≠ k then convertEncodeNumber .u64 (n : Int) et else encodeUintNatural k n
  | none => encodeUintNatural k n

/-! ## Map-entry ordering -/

/-- Model of `bytes.Compare`: lexicographic byte comparison, a strict prefix compares
below the longer string. -/
def bytesCompare : List Nat → List Nat → Ordering
  | [], [] => .eq
  | [], _ :: _ => .lt
  | _ :: _, [] => .gt
  | a :: as, b :: bs => if a < b then .lt else if b < a then .gt else bytesCompare as bs

/-- The comparison `sort.Slice` is given in `encodeMap`
(`bytes.Compare(entries[i].A, entries[j].A) < 0`), as the corresponding
non-strict total preorder on (encoded key bytes, entry index) pairs. -/
def pairKeyLE (p q : List Nat × Nat) : Prop := bytesCompare p.1 q.1 ≠ Ordering.gt

instance : DecidableRel pairKeyLE := fun p q => by unfold pairKeyLE; infer_instance

/-- Model of the `sort.Slice` call of `encodeMap`.  Go's sort is unstable; any sort
agreeing with the comparator produces a permutation that is non-decreasing
under `pairKeyLE`, which determines the output uniquely whenever the encoded
keys are pairwise distinct (the situation of all theorems below). -/
def sortPairs (pairs : List (List Nat × Nat)) : List (List Nat × Nat) :=
  List.insertionSort pairKeyLE pairs

/-! ## Enum lookups -/

/-- The reserved type identity of `bcs.None` (`noneT`). -/
def noneTypeId : Nat := 0

/-- Model of `getStructEnumVariantIdx`: scan the fields for the unique non-nil
nullable field; a field of non-nullable kind is an error, as are zero or
more than one non-nil fields. -/
def structEnumScan : List Value → Nat → Option Nat → Except EncErr Nat
  | [], _, none => .error .noEnumVariantSet
  | [], _, some idx => .ok idx
  | f :: rest, i, acc =>
    if f.isNilableKind then
      if f.isNil then structEnumScan rest (i + 1) acc
      else
        match acc with
        | some _ => .error .multipleEnumVariantsSet
        | none => structEnumScan rest (i + 1) (some i)
    else .error .nonNullableEnumField

def getStructEnumVariantIdx (fields : List Value) : Except EncErr Nat :=
  structEnumScan fields 0 none

/-- Model of `getInterfaceEnumVariantIdx`: the dynamic type of the value (or `noneT`
for a nil interface) looked up in the registered variant list; the index in
the list is the wire index. -/
def getInterfaceEnumVariantIdx (inner : Option (Nat × Value)) (enumVariants : List Nat) :
    Except EncErr Nat :=
  let valT := match inner with
    | none => noneTypeId
    | some tw => tw.1
  match enumVariants.findIdx? (· == valT) with
  | some idx => .ok idx
  | none =>
    match inner with
    | none => .error .noneVariantNotRegistered
    | some _ => .error .variantNotRegistered

/-- The process-wide encoder environment: the `EnumTypes` registry (interface
type identity to the ordered variant type identities) and the
`InterfaceIsEnumByDefault` configuration flag. -/
structure EncEnv where
  enumTypes : List (Nat × List Nat)
  interfaceIsEnumByDefault : Bool

/-! ## The recursive encoder

Each function mirrors the Go routine of the same name.  Notes on the
translation:

* `encodeValue` resolves the effective type options as
  `typeOptionsFromTag.getD TypeOptions.default` (see `TypeOptions`) and
  strips pointer layers one at a time (the Go code counts the layers in
  `getEncodedTypeInfo` and strips them in `getEncodedValue`; with no custom
  encoders registered it always strips them all, erroring on a nil layer).
* `getBytes` (running a sub-encoding into a temporary buffer) needs no
  separate definition: a routine's returned `bytes` already are exactly what
  the temporary buffer would capture, and on error the buffer is discarded.
* `encodeMap` sorts (encoded key bytes, entry index) pairs and the emit loop
  looks each entry up by its index, where the Go code carries the
  `reflect.Value` of the entry through the sort; the pairs are in bijection.
* The per-collection `typeInfo` hint (`tInfo`) is a memoization of the type
  walk and does not change what is encoded, so it is not threaded through.
-/

mutual

def encodeValue (env : EncEnv) (v : Value) (typeOptionsFromTag : Option TypeOptions) : EncOut :=
  match v with
  | .vptr none => encFail .nilValue
  | .vptr (some inner) => encodeValue env inner typeOptionsFromTag
  | .vbool b => encOk (writeBoolBytes b)
  | .vint k n =>
    let typeOptions := typeOptionsFromTag.getD TypeOptions.default
    if typeOptions.isCompactInt then encOk (compactUint64Bytes ((n % (2 : Int) ^ 64).toNat))
    else encodeInt k n typeOptions.underlyingType
  | .vuint k n =>
    let typeOptions := typeOptionsFromTag.getD TypeOptions.default
    if typeOptions.isCompactInt then encOk (compactUint64Bytes n)
    else encodeUint k n typeOptions.underlyingType
  | .vstr s => encOk (writeLenBytes s.length ++ s)
  | .vslice ek elems =>
    let typeOptions := typeOptionsFromTag.getD TypeOptions.default
    encodeSlice env ek elems typeOptions.lenSizeInBytes
      (typeOptions.arrayElement.getD (false, TypeOptions.default))
  | .varray ek canAddr elems =>
    let typeOptions := typeOptionsFromTag.getD TypeOptions.default
    encodeArray env ek false canAddr elems (typeOptions.arrayElement.getD (false, TypeOptions.default))
  | .vmap entries =>
    let typeOptions := typeOptionsFromTag.getD TypeOptions.default
    encodeMap env entries typeOptions.lenSizeInBytes
      (typeOptions.mapKey.getD TypeOptions.default) (typeOptions.mapValue.getD TypeOptions.default)
  | .vstruct fields => encodeStructFieldsLoop env fields
  | .vstructEnum fields => encodeStructEnum env fields
  | .viface tid inner =>
    let typeOptions := typeOptionsFromTag.getD TypeOptions.default
    encodeInterface env tid inner (!typeOptions.interfaceIsNotEnum)
termination_by (sizeOf v, 0, 0)

def encodeSlice (env : EncEnv) (ek : ElemKind) (elems : Option (List Value))
    (lenSizeInBytes : Nat) (elemOpts : Bool × TypeOptions) : EncOut :=
  match sliceLenCheck lenSizeInBytes (elems.getD []).length with
  | some e => encFail e
  | none =>
    (encOk (writeLenBytes (elems.getD []).length)).seq
      (encodeArray env ek true true (elems.getD []) elemOpts)
termination_by (sizeOf elems, 3, 0)
decreasing_by
  rcases elems with _ | l
  · exact Prod.Lex.right _ (Prod.Lex.left _ _ (by omega))
  · exact Prod.Lex.left _ _ (by simp)

def encodeArray (env : EncEnv) (ek : ElemKind) (isSlice canAddr : Bool) (elems : List Value)
    (elemOpts : Bool × TypeOptions) : EncOut :=
  if !ek.hasCustomizations && ek == ElemKind.u8 && (isSlice || canAddr) && !elemOpts.1 then
    encOk (elems.map Value.asByte)
  else if elemOpts.1 then encodeArrayLoopBA env elems elemOpts.2
  else encodeArrayLoop env elems elemOpts.2
termination_by (sizeOf elems, 2, 0)

def encodeArrayLoop (env : EncEnv) (elems : List Value) (elemTypeOptions : TypeOptions) : EncOut :=
  match elems with
  | [] => encOk []
  | e :: rest =>
    (encodeValue env e (some elemTypeOptions)).seq (encodeArrayLoop env rest elemTypeOptions)
termination_by (sizeOf elems, 1, 0)

def encodeArrayLoopBA (env : EncEnv) (elems : List Value) (elemTypeOptions : TypeOptions) : EncOut :=
  match elems with
  | [] => encOk []
  | e :: rest =>
    (encodeAsByteArray env e (some elemTypeOptions)).seq (encodeArrayLoopBA env rest elemTypeOptions)
termination_by (sizeOf elems, 1, 0)

def encodeAsByteArray (env : EncEnv) (v : Value) (opts : Option TypeOptions) : EncOut :=
  let r := encodeValue env v opts
  match r.err with
  | some e => encFail e
  | none => encOk (writeLenBytes r.bytes.length ++ r.bytes)
termination_by (sizeOf v, 1, 0)

def encodeMap (env : EncEnv) (entries : Option (List (Value × Value))) (lenSizeInBytes : Nat)
    (mapKeyOpts mapValueOpts : TypeOptions) : EncOut :=
  match entries with
  | none => encFail .nilMap
  | some es =>
    match mapLenCheck lenSizeInBytes es.length with
    | some e => encFail e
    | none =>
      match encodeMapKeysLoop env es mapKeyOpts 0 with
      | .error e => ⟨writeLenBytes es.length, some e⟩
      | .ok pairs =>
        (encOk (writeLenBytes es.length)).seq
          (encodeMapEmitLoop env es (sortPairs pairs) mapValueOpts)
termination_by (sizeOf entries, 3, 0)

def encodeMapKeysLoop (env : EncEnv) (entries : List (Value × Value)) (mapKeyOpts : TypeOptions)
    (i : Nat) : Except EncErr (List (List Nat × Nat)) :=
  match entries with
  | [] => .ok []
  | e :: rest =>
    let r := encodeValue env e.1 (some mapKeyOpts)
    match r.err with
    | some err => .error err
    | none =>
      match encodeMapKeysLoop env rest mapKeyOpts (i + 1) with
      | .error err => .error err
      | .ok pairs => .ok ((r.bytes, i) :: pairs)
termination_by (sizeOf entries, 1, 0)
decreasing_by
  all_goals simp_wf
  · obtain ⟨k, w⟩ := e
    exact Prod.Lex.left _ _ (by simp; omega)
  · exact Prod.Lex.left _ _ (by omega)

def encodeMapEmitLoop (env : EncEnv) (entries : List (Value × Value))
    (sorted : List (List Nat × Nat)) (mapValueOpts : TypeOptions) : EncOut :=
  match sorted with
  | [] => encOk []
  | p :: rest =>
    match h : entries[p.2]? with
    | none => encFail .unexpectedKind
    | some kv =>
      (encOk p.1).seq ((encodeValue env kv.2 (some mapValueOpts)).seq
        (encodeMapEmitLoop env entries rest mapValueOpts))
termination_by (sizeOf entries, 2, sorted.length)
decreasing_by
  all_goals simp_wf
  · obtain ⟨hi, heq⟩ := List.getElem?_eq_some.1 h
    have hm := List.sizeOf_lt_of_mem (List.getElem_mem hi)
    rw [heq] at hm
    obtain ⟨k, w⟩ := kv
    exact Prod.Lex.left _ _ (by simp at hm ⊢; omega)
  · exact Prod.Lex.right _ (Prod.Lex.right _ (by simp))

def encodeStructFieldsLoop (env : EncEnv) (fields : List (FieldOptions × Value)) : EncOut :=
  match fields with
  | [] => encOk []
  | fv :: rest =>
    if fv.1.skip then encodeStructFieldsLoop env rest
    else if fv.2.isNilableKind then
      if fv.2.isNil && !fv.1.optional && !fv.2.isIfaceKind && !fv.2.isSliceKind then
        encFail .nonOptionalNilField
      else if fv.1.optional then
        if fv.2.isNil then (encOk [0]).seq (encodeStructFieldsLoop env rest)
        else
          (encOk [1]).seq ((encodeStructField env fv.2 fv.1).seq (encodeStructFieldsLoop env rest))
      else (encodeStructField env fv.2 fv.1).seq (encodeStructFieldsLoop env rest)
    else (encodeStructField env fv.2 fv.1).seq (encodeStructFieldsLoop env rest)
termination_by (sizeOf fields, 1, 0)
decreasing_by
  all_goals simp_wf
  all_goals simp only [Prod.lex_def]
  all_goals obtain ⟨fo, fval⟩ := fv
  all_goals simp
  all_goals omega

def encodeStructField (env : EncEnv) (fieldVal : Value) (fieldOpts : FieldOptions) : EncOut :=
  if fieldOpts.asByteArray then encodeAsByteArray env fieldVal (some fieldOpts.typeOptions)
  else encodeValue env fieldVal (some fieldOpts.typeOptions)
termination_by (sizeOf fieldVal, 2, 0)

def encodeStructEnum (env : EncEnv) (fields : List Value) : EncOut :=
  match getStructEnumVariantIdx fields with
  | .error e => encFail e
  | .ok enumVariantIdx =>
    match h : fields[enumVariantIdx]? with
    | none => encFail .unexpectedKind
    | some f => encodeEnum env (some f) enumVariantIdx
termination_by (sizeOf fields, 2, 0)
decreasing_by
  all_goals simp_wf
  obtain ⟨hi, rfl⟩ := List.getElem?_eq_some.1 h
  have hm := List.sizeOf_lt_of_mem (List.getElem_mem hi)
  simp only [Prod.lex_def]
  omega

def encodeEnum (env : EncEnv) (v : Option Value) (variantIdx : Nat) : EncOut :=
  (encOk (writeEnumIdxBytes variantIdx)).seq
    (match v with
     | none => encOk []
     | some w => encodeValue env w none)
termination_by (v.elim 0 sizeOf, 0, 1)

def encodeInterface (env : EncEnv) (tid : Nat) (inner : Option (Nat × Value))
    (couldBeEnum : Bool) : EncOut :=
  if !couldBeEnum then
    match inner with
    | none => encFail .nilInterface
    | some tw => encodeValue env tw.2 none
  else
    match env.enumTypes.lookup tid with
    | none =>
      if env.interfaceIsEnumByDefault then encFail .interfaceNotEnum
      else
        match inner with
        | none => encFail .nilInterface
        | some tw => encodeValue env tw.2 none
    | some enumVariants =>
      match getInterfaceEnumVariantIdx inner enumVariants with
      | .error e => encFail e
      | .ok idx => encodeEnum env (inner.map Prod.snd) idx
termination_by (sizeOf inner, 1, 0)
decreasing_by
  all_goals simp_wf
  all_goals try (obtain ⟨t, w⟩ := tw; simp; omega)
  all_goals try (rcases inner with _ | ⟨t, w⟩ <;> simp <;> omega)

end

/-! ## The encoder object and its entry points

The Go `Encoder` carries the output writer and the sticky error; `out` is the
byte string the underlying `bytes.Buffer` has received (the model's sink is
infallible, like `bytes.Buffer`). -/

structure Encoder where
  out : List Nat
  err : Option EncErr
deriving DecidableEq, Repr

/-- Model of `Encoder.Err()`. -/
def Encoder.Err (e : Encoder) : Option EncErr := e.err

/-- Model of `Encoder.Encode`: a no-op once `e.err` is set; `nil` is an error; the
bytes produced by `encodeValue` (a prefix on error) reach the stream. -/
def Encoder.Encode (env : EncEnv) (e : Encoder) (val : Option Value) : Encoder :=
  if e.err.isSome then e
  else
    match val with
    | none => { e with err := some EncErr.nilTopValue }
    | some v =>
      let r := encodeValue env v none
      { out := e.out ++ r.bytes, err := r.err }

/-- Model of `Encoder.Write`: returns `(0, e.err)` without writing when `e.err` is set,
else forwards to the sink and returns the written count. -/
def Encoder.Write (e : Encoder) (b : List Nat) : Encoder × Nat × Option EncErr :=
  if e.err.isSome then (e, 0, e.err)
  else ({ e with out := e.out ++ b }, b.length, none)

/-- Model of `Marshal`: encode into a fresh buffer, return its bytes or the error. -/
def Marshal (env : EncEnv) (val : Option Value) : Except EncErr (List Nat) :=
  let e := Encoder.Encode env ⟨[], none⟩ val
  match e.err with
  | some err => .error err
  | none => .ok e.out

/-- One public encoder operation, for stating the sticky-error property over
arbitrary operation sequences. -/
inductive EncOp where
  | encodeOp (val : Option Value)
  | writeOp (b : List Nat)

def runEncOps (env : EncEnv) (e : Encoder) : List EncOp → Encoder
  | [] => e
  | .encodeOp val :: rest => runEncOps env (Encoder.Encode env e val) rest
  | .writeOp b :: rest => runEncOps env (Encoder.Write e b).1 rest

/-! ## Enum registration (`RegisterEnumType`) -/

/-- Model of a `reflect.Type` as `RegisterEnumType` observes it: its identity,
its kind (interface or not), and the set of interface identities it
implements. -/
structure RType where
  id : Nat
  isInterface : Bool
  impls : List Nat
deriving DecidableEq, Repr

/-- Errors modeling the `panic`s of `RegisterEnumType`.  `nilVariantValue` models the runtime
nil dereference when a variant argument is a nil interface value
(`reflect.TypeOf` returns `nil` and `Kind()` panics). -/
inductive RegErr where
  | enumTypeNotInterface
  | variantIsInterface
  | variantDoesNotImplement
  | alreadyRegistered
  | nilVariantValue
deriving DecidableEq, Repr

/-- The per-variant validation loop of `RegisterEnumType`, collecting the
variant types in argument order. -/
def checkVariants (enumT : RType) : List (Option RType) → Except RegErr (List RType)
  | [] => .ok []
  | none :: _ => .error .nilVariantValue
  | some variantT :: rest =>
    if variantT.isInterface then .error .variantIsInterface
    else if !(variantT.impls.contains enumT.id) then .error .variantDoesNotImplement
    else (checkVariants enumT rest).map (variantT :: ·)

/-- Model of `RegisterEnumType[EnumType](variant, variants...)` over a registry modeled
as an association list (`EnumTypes`); a variant argument is `none` when the
passed value is a nil interface. -/
def RegisterEnumType (reg : List (Nat × List RType)) (enumT : RType) (variant : Option RType)
    (variants : List (Option RType)) : Except RegErr (List (Nat × List RType)) :=
  let allVariants := variant :: variants
  if !enumT.isInterface then .error .enumTypeNotInterface
  else
    match checkVariants enumT allVariants with
    | .error e => .error e
    | .ok variantsT =>
      if (reg.lookup enumT.id).isSome then .error .alreadyRegistered
      else .ok (reg ++ [(enumT.id, variantsT)])

/-- Arithmetic characterization (written from the spec's notion of "the value
fits losslessly") of when the round-trip check of `convertEncodeNumber2`
passes, for the two source kinds the encoder instantiates it with (`i64` from
`v.Int()` and `u64` from `v.Uint()`).  A 64-bit target accepts every value of
either source kind; narrower targets accept exactly the listed ranges. -/
def fitsCond (fromK toK : IntKind) (v : Int) : Prop :=
  if toK.width = 64 then True
  else if toK.signed then
    if fromK.signed then -(2 ^ (toK.width - 1)) ≤ v ∧ v < 2 ^ (toK.width - 1)
    else v < 2 ^ (toK.width - 1) ∨ 2 ^ 64 - 2 ^ (toK.width - 1) ≤ v
  else
    if fromK.signed then 0 ≤ v ∧ v < 2 ^ toK.width else v < 2 ^ toK.width

/-- The comparator handed to `sort.Slice`, lifted to the (index, entry)
pairs of the enumerated entry list: compare entries by their encoded key
bytes. -/
def enumKeyLE (env : EncEnv) (ko : TypeOptions) (x y : Nat × (Value × Value)) : Prop :=
  pairKeyLE ((encodeValue env x.2.1 (some ko)).bytes, x.1)
    ((encodeValue env y.2.1 (some ko)).bytes, y.1)

instance (env : EncEnv) (ko : TypeOptions) : DecidableRel (enumKeyLE env ko) :=
  fun x y => by unfold enumKeyLE; infer_instance

/-! # Theorems -/

theorem uleb128_low (v : Nat) (h : v < 0x80) : uleb128 v = [v] := by
  rw [uleb128]; simp [h]

theorem uleb128_high (v : Nat) (h : 0x80 ≤ v) :
    uleb128 v = (v % 0x80 + 0x80) :: uleb128 (v / 0x80) := by
  rw [uleb128]; simp [Nat.not_lt.2 h]

theorem or_128_mod_two_pow_8 (v : Nat) : (v ||| 0x80) % 2 ^ 8 = v % 2 ^ 8 ||| 0x80 := by
  apply Nat.eq_of_testBit_eq
  intro i
  simp only [Nat.testBit_mod_two_pow, Nat.testBit_or]
  by_cases h : i < 8
  · simp [h]
  · have h128 : Nat.testBit 0x80 i = false := by
      rw [show (0x80 : Nat) = 2 ^ 7 by norm_num, Nat.testBit_two_pow]
      simpa using by omega
    have hlow : Nat.testBit (v % 2 ^ 8) i = false :=
      Nat.testBit_lt_two_pow (lt_of_lt_of_le (Nat.mod_lt _ (by norm_num))
        (Nat.pow_le_pow_right (by norm_num) (by omega)))
    simp [h, h128, hlow]

set_option maxRecDepth 4000 in
theorem or_128_small : ∀ x, x < 256 → x ||| 0x80 = x % 0x80 + 0x80 := by decide

theorem or_128_mod_256 (v : Nat) : (v ||| 0x80) % 256 = v % 0x80 + 0x80 := by
  have h1 := or_128_mod_two_pow_8 v
  norm_num at h1
  rw [h1, or_128_small (v % 256) (Nat.mod_lt _ (by norm_num)),
    Nat.mod_mod_of_dvd v (by norm_num)]

theorem shiftRight_7k (v k : Nat) : v >>> (7 * k) = v / 0x80 ^ k := by
  rw [Nat.shiftRight_eq_div_pow]
  congr 1
  rw [show (0x80 : Nat) = 2 ^ 7 by norm_num, ← pow_mul]

/-- Unfolded form of the canonical ULEB128 encoding: if `v` needs exactly
`k+1` groups of seven bits, the encoding lists the seven-bit groups low to
high, all but the last tagged with the continuation bit. -/
theorem uleb128_eq_groups (k : Nat) :
    ∀ v : Nat, v < 0x80 ^ (k + 1) → (k = 0 ∨ 0x80 ^ k ≤ v) →
      uleb128 v = ((List.range k).map fun i => v / 0x80 ^ i % 0x80 + 0x80) ++ [v / 0x80 ^ k] := by
  induction k with
  | zero =>
    intro v hv _
    rw [uleb128_low v (by simpa using hv)]
    simp
  | succ k ih =>
    intro v hv hk
    have hge : 0x80 ≤ v := by
      rcases hk with h | h
      · omega
      · have : (0x80 : Nat) ≤ 0x80 ^ (k + 1) := Nat.le_self_pow (by omega) _
        omega
    have hdiv_lt : v / 0x80 < 0x80 ^ (k + 1) := by
      rw [Nat.div_lt_iff_lt_mul (by norm_num)]
      calc v < 0x80 ^ (k + 2) := hv
        _ = 0x80 ^ (k + 1) * 0x80 := by ring
    have hdiv_ge : k = 0 ∨ 0x80 ^ k ≤ v / 0x80 := by
      rcases hk with h | h
      · omega
      · right
        rw [Nat.le_div_iff_mul_le (by norm_num)]
        calc 0x80 ^ k * 0x80 = 0x80 ^ (k + 1) := by ring
          _ ≤ v := h
    rw [uleb128_high v hge, ih (v / 0x80) hdiv_lt hdiv_ge]
    have hmap : ∀ i : Nat, v / 0x80 / 0x80 ^ i = v / 0x80 ^ (i + 1) := by
      intro i; rw [Nat.div_div_eq_div_mul]; congr 1; ring
    simp only [List.range_succ_eq_map, List.map_cons, List.map_map]
    simp only [Function.comp_def, hmap]
    simp [List.cons_append]

theorem compact_byte_mid (v k : Nat) : toByte ((v >>> (7 * k)) ||| 0x80) = v / 0x80 ^ k % 0x80 + 0x80 := by
  rw [toByte, or_128_mod_256, shiftRight_7k]

theorem compact_byte_last (v k : Nat) (h : v / 0x80 ^ k < 256) : toByte (v >>> (7 * k)) = v / 0x80 ^ k := by
  rw [toByte, shiftRight_7k, Nat.mod_eq_of_lt h]

theorem compactView_eq_uleb128 (k v : Nat) (hlt : v < 0x80 ^ (k + 1))
    (hge : k = 0 ∨ 0x80 ^ k ≤ v) : compactView k v = uleb128 v := by
  rw [uleb128_eq_groups k v hlt hge, compactView]
  congr 1
  · exact List.map_congr_left fun i _ => compact_byte_mid v i
  · have hd : v / 0x80 ^ k < 0x80 := by
      rw [Nat.div_lt_iff_lt_mul (Nat.pos_pow_of_pos k (by norm_num))]
      calc v < 0x80 ^ (k + 1) := hlt
        _ = 0x80 * 0x80 ^ k := by ring
    rw [compact_byte_last v k (by omega)]

/-- Theorem: `WriteCompactUint64` agrees with the canonical minimal ULEB128 encoding on
every unsigned 64-bit value. -/
theorem compactUint64Bytes_eq_uleb128 (v : Nat) (hv : v < 2 ^ 64) :
    compactUint64Bytes v = uleb128 v := by
  by_cases h1 : v < 0x80
  · rw [compactUint64Bytes, if_pos h1, uleb128_low v h1, toByte, Nat.mod_eq_of_lt (by omega)]
  by_cases h2 : v < 0x4000
  · rw [← compactView_eq_uleb128 1 v (by norm_num; omega) (by right; norm_num; omega)]
    rw [compactUint64Bytes]
    simp [compactView, h1, h2, List.range_succ]
  by_cases h3 : v < 0x200000
  · rw [← compactView_eq_uleb128 2 v (by norm_num; omega) (by right; norm_num; omega)]
    rw [compactUint64Bytes]
    norm_num [compactView, h1, h2, h3, List.range_succ]
  by_cases h4 : v < 0x10000000
  · rw [← compactView_eq_uleb128 3 v (by norm_num; omega) (by right; norm_num; omega)]
    rw [compactUint64Bytes]
    norm_num [compactView, h1, h2, h3, h4, List.range_succ]
  by_cases h5 : v < 0x800000000
  · rw [← compactView_eq_uleb128 4 v (by norm_num; omega) (by right; norm_num; omega)]
    rw [compactUint64Bytes]
    norm_num [compactView, h1, h2, h3, h4, h5, List.range_succ]
  by_cases h6 : v < 0x40000000000
  · rw [← compactView_eq_uleb128 5 v (by norm_num; omega) (by right; norm_num; omega)]
    rw [compactUint64Bytes]
    norm_num [compactView, h1, h2, h3, h4, h5, h6, List.range_succ]
  by_cases h7 : v < 0x2000000000000
  · rw [← compactView_eq_uleb128 6 v (by norm_num; omega) (by right; norm_num; omega)]
    rw [compactUint64Bytes]
    norm_num [compactView, h1, h2, h3, h4, h5, h6, h7, List.range_succ]
  by_cases h8 : v < 0x100000000000000
  · rw [← compactView_eq_uleb128 7 v (by norm_num; omega) (by right; norm_num; omega)]
    rw [compactUint64Bytes]
    norm_num [compactView, h1, h2, h3, h4, h5, h6, h7, h8, List.range_succ]
  by_cases h9 : v < 0x8000000000000000
  · rw [← compactView_eq_uleb128 8 v (by norm_num; omega) (by right; norm_num; omega)]
    rw [compactUint64Bytes]
    norm_num [compactView, h1, h2, h3, h4, h5, h6, h7, h8, h9, List.range_succ]
  · rw [← compactView_eq_uleb128 9 v (by norm_num; omega) (by right; norm_num; omega)]
    rw [compactUint64Bytes]
    norm_num [compactView, h1, h2, h3, h4, h5, h6, h7, h8, h9, List.range_succ]

theorem ulebRead_lt : ∀ bs v, ulebRead bs = some v → v < 0x80 ^ bs.length := by
  intro bs
  induction bs with
  | nil => intro v h; simp [ulebRead] at h
  | cons b rest ih =>
    intro v h
    rw [ulebRead] at h
    by_cases hb : b < 0x80
    · rw [if_pos hb] at h
      by_cases hr : rest = ([] : List Nat)
      · simp [hr] at h
        have : (0x80 : Nat) ≤ 0x80 ^ (b :: rest).length := Nat.le_self_pow (by simp) _
        omega
      · simp [hr] at h
    · rw [if_neg hb] at h
      rcases Option.map_eq_some'.1 h with ⟨w, hw, hv⟩
      have := ih w hw
      have hmod : b % 0x80 < 0x80 := Nat.mod_lt _ (by norm_num)
      have : w * 0x80 + b % 0x80 < 0x80 ^ rest.length * 0x80 := by nlinarith
      calc v = w * 0x80 + b % 0x80 := hv.symm
        _ < 0x80 ^ rest.length * 0x80 := this
        _ = 0x80 ^ (b :: rest).length := by rw [List.length_cons]; ring

theorem uleb128_length_le : ∀ k v, v < 0x80 ^ k → 1 ≤ k → (uleb128 v).length ≤ k := by
  intro k
  induction k with
  | zero => omega
  | succ k ih =>
    intro v hv _
    by_cases h : v < 0x80
    · rw [uleb128_low v h]; simp
    · have hk : 1 ≤ k := by
        by_contra hk
        have : k = 0 := by omega
        subst this; simp at hv; omega
      rw [uleb128_high v (by omega)]
      have : v / 0x80 < 0x80 ^ k := by
        rw [Nat.div_lt_iff_lt_mul (by norm_num)]
        calc v < 0x80 ^ (k + 1) := hv
          _ = 0x80 ^ k * 0x80 := by ring
      simpa using ih (v / 0x80) this hk

theorem ulebRead_uleb128 (v : Nat) : ulebRead (uleb128 v) = some v := by
  induction v using Nat.strong_induction_on with
  | _ v ih =>
    by_cases h : v < 0x80
    · rw [uleb128_low v h, ulebRead]
      simp [h]
    · rw [uleb128_high v (by omega), ulebRead]
      have hb : ¬ (v % 0x80 + 0x80 < 0x80) := by omega
      rw [if_neg hb, ih (v / 0x80) (Nat.div_lt_self (by omega) (by omega))]
      simp only [Option.map_some']
      congr 1
      omega

/-! ## C2: WriteCompactUint64 is minimal ULEB128 -/

/-- C2: for every unsigned 64-bit integer `v`, `WriteCompactUint64` (the byte
source of `WriteLen` and `WriteEnumIdx`) emits the minimum-length ULEB128
encoding of `v` — seven payload bits per byte with the high bit as
continuation: it equals the canonical encoding `uleb128 v`, that byte string
reads back as `v`, no ULEB128 byte string reading back as `v` is shorter, and
the five sample values encode as listed in the spec. -/
theorem C2_writeCompactUint64_minimal_uleb128 (v : Nat) (hv : v < 2 ^ 64) :
    (compactUint64Bytes v = uleb128 v ∧
      ulebRead (compactUint64Bytes v) = some v ∧
      (∀ bs, ulebRead bs = some v → (compactUint64Bytes v).length ≤ bs.length)) ∧
    (compactUint64Bytes 0 = [0x00] ∧ compactUint64Bytes 127 = [0x7F] ∧
      compactUint64Bytes 128 = [0x80, 0x01] ∧ compactUint64Bytes 16384 = [0x80, 0x80, 0x01] ∧
      compactUint64Bytes (2 ^ 32 - 1) = [0xFF, 0xFF, 0xFF, 0xFF, 0x0F]) := by
  have heq := compactUint64Bytes_eq_uleb128 v hv
  refine ⟨⟨heq, ?_, ?_⟩, by decide, by decide, by decide, by decide, by decide⟩
  · rw [heq]; exact ulebRead_uleb128 v
  · intro bs hbs
    rw [heq]
    have hlt := ulebRead_lt bs v hbs
    have hne : bs ≠ [] := by rintro rfl; simp [ulebRead] at hbs
    have h1 : 1 ≤ bs.length := by
      cases bs
      · simp at hne
      · simp
    exact uleb128_length_le bs.length v hlt h1

theorem C2_witness :
    compactUint64Bytes (2 ^ 32 - 1) = uleb128 (2 ^ 32 - 1) ∧
      compactUint64Bytes 16384 = [0x80, 0x80, 0x01] :=
  ⟨((C2_writeCompactUint64_minimal_uleb128 (2 ^ 32 - 1) (by norm_num)).1).1,
    ((C2_writeCompactUint64_minimal_uleb128 (2 ^ 32 - 1) (by norm_num)).2).2.2.2.1⟩

/-! ## C6: the encoder's error state is absorbing -/

/-- C6: once an error is stored in the encoder, `Encode` and `Write` perform
no writes and preserve the stored error (any sequence of them leaves the
encoder unchanged), `Write` returns the stored error, and `Err()` still
reports it. -/
theorem C6_sticky_error (env : EncEnv) (e : Encoder) (er : EncErr) (h : e.err = some er) :
    (∀ val, Encoder.Encode env e val = e) ∧
    (∀ b, Encoder.Write e b = (e, 0, some er)) ∧
    (∀ ops, runEncOps env e ops = e) ∧
    Encoder.Err e = some er := by
  have hEnc : ∀ val, Encoder.Encode env e val = e := by
    intro val
    simp [Encoder.Encode, h]
  have hW : ∀ b, Encoder.Write e b = (e, 0, some er) := by
    intro b
    simp [Encoder.Write, h]
  refine ⟨hEnc, hW, ?_, h⟩
  intro ops
  induction ops with
  | nil => rfl
  | cons op rest ih =>
    cases op with
    | encodeOp val => rw [runEncOps, hEnc, ih]
    | writeOp b => rw [runEncOps, hW, ih]

theorem C6_witness :
    Encoder.Encode ⟨[], false⟩ ⟨[7], some EncErr.nilMap⟩ (some (Value.vbool true)) =
        ⟨[7], some EncErr.nilMap⟩ ∧
      Encoder.Write ⟨[7], some EncErr.nilMap⟩ [1, 2, 3] =
        (⟨[7], some EncErr.nilMap⟩, 0, some EncErr.nilMap) :=
  ⟨(C6_sticky_error ⟨[], false⟩ ⟨[7], some EncErr.nilMap⟩ EncErr.nilMap rfl).1 _,
    (C6_sticky_error ⟨[], false⟩ ⟨[7], some EncErr.nilMap⟩ EncErr.nilMap rfl).2.1 _⟩

/-! ## C5: length-prefix ceilings -/

/-- C5: a slice or map whose effective options set the 2-byte length ceiling
fails to encode once its length exceeds `0xFFFF` (and analogously `0xFFFFFFFF`
for the 4-byte ceiling); within the ceiling, the value is encoded exactly as
with the default (no-ceiling) options: the ULEB128 length prefix followed by
the elements (for a map, the length prefix always starts the emitted bytes).
-/
theorem C5_length_ceilings (env : EncEnv) (ek : ElemKind) (elems : List Value)
    (elemOpts : Bool × TypeOptions) (entries : List (Value × Value)) (ko vo : TypeOptions) :
    (elems.length > 0xFFFF →
      encodeSlice env ek (some elems) 2 elemOpts = encFail EncErr.sliceLenExceeds2Bytes) ∧
    (elems.length ≤ 0xFFFF →
      encodeSlice env ek (some elems) 2 elemOpts = encodeSlice env ek (some elems) 0 elemOpts ∧
      encodeSlice env ek (some elems) 0 elemOpts =
        (encOk (writeLenBytes elems.length)).seq (encodeArray env ek true true elems elemOpts)) ∧
    (elems.length > 0xFFFFFFFF →
      encodeSlice env ek (some elems) 4 elemOpts = encFail EncErr.sliceLenExceeds4Bytes) ∧
    (elems.length ≤ 0xFFFFFFFF →
      encodeSlice env ek (some elems) 4 elemOpts = encodeSlice env ek (some elems) 0 elemOpts) ∧
    (entries.length > 0xFFFF →
      encodeMap env (some entries) 2 ko vo = encFail EncErr.mapLenExceeds2Bytes) ∧
    (entries.length ≤ 0xFFFF →
      encodeMap env (some entries) 2 ko vo = encodeMap env (some entries) 0 ko vo) ∧
    (entries.length > 0xFFFFFFFF →
      encodeMap env (some entries) 4 ko vo = encFail EncErr.mapLenExceeds4Bytes) ∧
    (entries.length ≤ 0xFFFFFFFF →
      encodeMap env (some entries) 4 ko vo = encodeMap env (some entries) 0 ko vo) ∧
    (∃ tail, (encodeMap env (some entries) 0 ko vo).bytes = writeLenBytes entries.length ++ tail) := by
  refine ⟨?_, ?_, ?_, ?_, ?_, ?_, ?_, ?_, ?_⟩
  · intro h
    rw [encodeSlice]
    simp [sliceLenCheck, h]
  · intro h
    rw [encodeSlice, encodeSlice]
    simp [sliceLenCheck, Nat.not_lt.2 h]
  · intro h
    rw [encodeSlice]
    simp [sliceLenCheck, h]
  · intro h
    rw [encodeSlice, encodeSlice]
    simp [sliceLenCheck, Nat.not_lt.2 h]
  · intro h
    rw [encodeMap]
    simp [mapLenCheck, h]
  · intro h
    rw [encodeMap, encodeMap]
    simp [mapLenCheck, Nat.not_lt.2 h]
  · intro h
    rw [encodeMap]
    simp [mapLenCheck, h]
  · intro h
    rw [encodeMap, encodeMap]
    simp [mapLenCheck, Nat.not_lt.2 h]
  · rw [encodeMap]
    simp only [mapLenCheck]
    cases hk : encodeMapKeysLoop env entries ko 0 with
    | error e => exact ⟨[], by simp⟩
    | ok pairs =>
      refine ⟨(encodeMapEmitLoop env entries (sortPairs pairs) vo).bytes, ?_⟩
      simp [EncOut.seq, encOk]

theorem C5_witness :
    encodeSlice ⟨[], false⟩ ElemKind.other (some (List.replicate 65536 (Value.vbool true))) 2
        (false, TypeOptions.default) = encFail EncErr.sliceLenExceeds2Bytes ∧
      encodeSlice ⟨[], false⟩ ElemKind.other (some [Value.vbool true]) 2
        (false, TypeOptions.default) =
        encodeSlice ⟨[], false⟩ ElemKind.other (some [Value.vbool true]) 0
          (false, TypeOptions.default) := by
  constructor
  · exact (C5_length_ceilings ⟨[], false⟩ ElemKind.other _ _ [] TypeOptions.default
      TypeOptions.default).1 (by rw [List.length_replicate]; omega)
  · exact ((C5_length_ceilings ⟨[], false⟩ ElemKind.other _ _ [] TypeOptions.default
      TypeOptions.default).2.1 (by simp)).1

/-! ## C3 and C10: struct-enum variant selection -/

theorem isNil_imp_nilable (f : Value) (h : f.isNil = true) : f.isNilableKind = true := by
  cases f with
  | vptr i => cases i <;> simp [Value.isNilableKind]
  | viface t i => simp [Value.isNilableKind]
  | vmap e => simp [Value.isNilableKind]
  | vslice ek e => simp [Value.isNilableKind]
  | vbool b => simp [Value.isNil] at h
  | vint k n => simp [Value.isNil] at h
  | vuint k n => simp [Value.isNil] at h
  | vstr s => simp [Value.isNil] at h
  | varray ek c es => simp [Value.isNil] at h
  | vstruct fs => simp [Value.isNil] at h
  | vstructEnum fs => simp [Value.isNil] at h

theorem scan_allNil (fields : List Value) (h : ∀ f ∈ fields, f.isNil = true) :
    ∀ i, (structEnumScan fields i none = .error EncErr.noEnumVariantSet) ∧
      ∀ idx, structEnumScan fields i (some idx) = .ok idx := by
  induction fields with
  | nil => intro i; exact ⟨rfl, fun idx => rfl⟩
  | cons f rest ih =>
    intro i
    have hf := h f (by simp)
    have hnb := isNil_imp_nilable f hf
    have hr : ∀ g ∈ rest, g.isNil = true := fun g hg => h g (by simp [hg])
    refine ⟨?_, fun idx => ?_⟩
    · rw [structEnumScan]
      simp only [hnb, hf, if_true]
      exact (ih hr (i + 1)).1
    · rw [structEnumScan]
      simp only [hnb, hf, if_true]
      exact (ih hr (i + 1)).2 idx

theorem scan_one (pre : List Value) (hpre : ∀ f ∈ pre, f.isNil = true) (g : Value)
    (hg : g.isNil = false) (hgn : g.isNilableKind = true) (post : List Value)
    (hpost : ∀ f ∈ post, f.isNil = true) :
    ∀ i, structEnumScan (pre ++ g :: post) i none = .ok (i + pre.length) := by
  induction pre with
  | nil =>
    intro i
    rw [List.nil_append, structEnumScan]
    simp only [hgn, hg, if_true, Bool.false_eq_true, if_false]
    simpa using (scan_allNil post hpost (i + 1)).2 i
  | cons p pre ih =>
    intro i
    have hp := hpre p (by simp)
    rw [List.cons_append, structEnumScan]
    simp only [isNil_imp_nilable p hp, hp, if_true]
    rw [show i + (p :: pre).length = (i + 1) + pre.length by simp; omega]
    exact ih (fun f hf => hpre f (by simp [hf])) (i + 1)

theorem scan_multi_acc (fields : List Value) (h : ∀ f ∈ fields, f.isNilableKind = true)
    (hex : ∃ f ∈ fields, f.isNil = false) :
    ∀ i idx, structEnumScan fields i (some idx) = .error EncErr.multipleEnumVariantsSet := by
  induction fields with
  | nil => simp at hex
  | cons f rest ih =>
    intro i idx
    have hf := h f (by simp)
    rw [structEnumScan]
    simp only [hf, if_true]
    by_cases hn : f.isNil = true
    · simp only [hn, if_true]
      have hex2 : ∃ g ∈ rest, g.isNil = false := by
        rcases hex with ⟨g, hg, hgn⟩
        rcases List.mem_cons.1 hg with rfl | hg2
        · rw [hn] at hgn; cases hgn
        · exact ⟨g, hg2, hgn⟩
      exact ih (fun g hg => h g (by simp [hg])) hex2 (i + 1) idx
    · simp [hn]

theorem scan_count2 (fields : List Value) (h : ∀ f ∈ fields, f.isNilableKind = true)
    (hc : 2 ≤ fields.countP (fun f => !f.isNil)) :
    ∀ i, structEnumScan fields i none = .error EncErr.multipleEnumVariantsSet := by
  induction fields with
  | nil =>
    rw [List.countP_nil] at hc
    exact absurd hc (by omega)
  | cons f rest ih =>
    intro i
    have hf := h f (by simp)
    have hr : ∀ g ∈ rest, g.isNilableKind = true := fun g hg => h g (by simp [hg])
    rw [structEnumScan]
    simp only [hf, if_true]
    rw [List.countP_cons] at hc
    by_cases hn : f.isNil = true
    · simp only [hn, if_true]
      have hite : (if (!f.isNil) = true then 1 else 0) = 0 := by rw [hn]; rfl
      exact ih hr (by omega) (i + 1)
    · have hnf : f.isNil = false := by revert hn; cases f.isNil <;> simp
      simp only [hnf, Bool.false_eq_true, if_false]
      have hite : (if (!f.isNil) = true then 1 else 0) = 1 := by rw [hnf]; rfl
      have hex : ∃ g ∈ rest, g.isNil = false := by
        rcases List.countP_pos_iff.1
          (show 0 < rest.countP (fun f => !f.isNil) by omega) with ⟨g, hg, hgp⟩
        exact ⟨g, hg, by simpa using hgp⟩
      exact scan_multi_acc rest hr hex (i + 1) i

theorem scan_nonNullable (fields : List Value) (hex : ∃ f ∈ fields, f.isNilableKind = false) :
    ∀ i acc, structEnumScan fields i acc = .error EncErr.nonNullableEnumField ∨
      structEnumScan fields i acc = .error EncErr.multipleEnumVariantsSet := by
  induction fields with
  | nil => simp at hex
  | cons f rest ih =>
    intro i acc
    by_cases hn : f.isNilableKind = true
    · have hex2 : ∃ g ∈ rest, g.isNilableKind = false := by
        rcases hex with ⟨g, hg, hgn⟩
        rcases List.mem_cons.1 hg with rfl | hg2
        · rw [hn] at hgn; cases hgn
        · exact ⟨g, hg2, hgn⟩
      by_cases hnil : f.isNil = true
      · cases acc with
        | none =>
          rw [structEnumScan]
          simp only [hn, hnil, if_true]
          exact ih hex2 (i + 1) none
        | some idx =>
          rw [structEnumScan]
          simp only [hn, hnil, if_true]
          exact ih hex2 (i + 1) (some idx)
      · have hnf : f.isNil = false := by revert hnil; cases f.isNil <;> simp
        cases acc with
        | none =>
          rw [structEnumScan]
          simp only [hn, hnf, Bool.false_eq_true, if_false, if_true]
          exact ih hex2 (i + 1) (some i)
        | some idx =>
          right
          rw [structEnumScan]
          simp [hn, hnf]
    · have hnf : f.isNilableKind = false := by revert hn; cases f.isNilableKind <;> simp
      left
      cases acc with
      | none =>
        rw [structEnumScan]
        simp [hnf]
      | some idx =>
        rw [structEnumScan]
        simp [hnf]

/-- C3: for a struct-enum all of whose fields are of nullable kind: when
exactly one field is non-nil (position `pre.length`), encoding emits that
ordinal as the ULEB128 variant index followed by the field's encoded payload;
when zero fields are non-nil, or at least two are, encoding fails. -/
theorem C3_struct_enum_variant (env : EncEnv) (fields : List Value)
    (hnil : ∀ f ∈ fields, f.isNilableKind = true) :
    (∀ pre g post, fields = pre ++ g :: post → (∀ f ∈ pre, f.isNil = true) →
      g.isNil = false → (∀ f ∈ post, f.isNil = true) →
      encodeStructEnum env fields =
        (encOk (writeEnumIdxBytes pre.length)).seq (encodeValue env g none)) ∧
    ((∀ f ∈ fields, f.isNil = true) →
      encodeStructEnum env fields = encFail EncErr.noEnumVariantSet) ∧
    (2 ≤ fields.countP (fun f => !f.isNil) →
      encodeStructEnum env fields = encFail EncErr.multipleEnumVariantsSet) := by
  refine ⟨?_, ?_, ?_⟩
  · rintro pre g post rfl hpre hg hpost
    have hgn : g.isNilableKind = true := hnil g (by simp)
    have hidx := scan_one pre hpre g hg hgn post hpost 0
    rw [encodeStructEnum, getStructEnumVariantIdx, hidx]
    have hget : (pre ++ g :: post)[(0 : Nat) + pre.length]? = some g := by
      rw [Nat.zero_add, List.getElem?_append_right (Nat.le_refl _)]
      simp
    split
    · next e herr => simp at herr
    · next j hok =>
      injection hok with hj
      subst hj
      split
      · next hnone => rw [hget] at hnone; cases hnone
      · next f1 hsome =>
        rw [hget] at hsome
        injection hsome with hfg
        subst hfg
        rw [encodeEnum]
        simp
  · intro hall
    rw [encodeStructEnum, getStructEnumVariantIdx, (scan_allNil fields hall 0).1]
  · intro hc
    rw [encodeStructEnum, getStructEnumVariantIdx, scan_count2 fields hnil hc 0]

theorem C3_witness :
    encodeStructEnum ⟨[], false⟩ [Value.vptr none, Value.vptr (some (Value.vbool true))] =
      (encOk (writeEnumIdxBytes 1)).seq
        (encodeValue ⟨[], false⟩ (Value.vptr (some (Value.vbool true))) none) := by
  have h := (C3_struct_enum_variant ⟨[], false⟩
    [Value.vptr none, Value.vptr (some (Value.vbool true))]
    (by
      intro f hf
      simp only [List.mem_cons, List.not_mem_nil, or_false] at hf
      rcases hf with rfl | rfl <;> rfl)).1
  have h2 := h [Value.vptr none] (Value.vptr (some (Value.vbool true))) [] rfl
    (by
      intro f hf
      simp only [List.mem_cons, List.not_mem_nil, or_false] at hf
      rcases hf with rfl; rfl)
    rfl (by intro f hf; simp at hf)
  simpa using h2

/-- C10: a struct-enum with any field of non-nullable kind fails to encode:
the scan errors either on the non-nullable field itself or, before reaching
it, on a second non-nil field. -/
theorem C10_nonnullable_field_rejected (env : EncEnv) (fields : List Value)
    (hex : ∃ f ∈ fields, f.isNilableKind = false) :
    encodeStructEnum env fields = encFail EncErr.nonNullableEnumField ∨
      encodeStructEnum env fields = encFail EncErr.multipleEnumVariantsSet := by
  rcases scan_nonNullable fields hex 0 none with h | h
  · left
    rw [encodeStructEnum, getStructEnumVariantIdx, h]
  · right
    rw [encodeStructEnum, getStructEnumVariantIdx, h]

theorem C10_witness :
    encodeStructEnum ⟨[], false⟩ [Value.vbool true, Value.vptr (some (Value.vbool true))] =
        encFail EncErr.nonNullableEnumField ∨
      encodeStructEnum ⟨[], false⟩ [Value.vbool true, Value.vptr (some (Value.vbool true))] =
        encFail EncErr.multipleEnumVariantsSet :=
  C10_nonnullable_field_rejected ⟨[], false⟩ _ ⟨Value.vbool true, by simp, rfl⟩

/-! ## C4: nullable struct fields (corrected) -/

/-- C4 (amended): in the struct field walk, a nil field of pointer or map
kind that is not marked optional is an encode error; an optional nullable
field encodes as the single byte `0x00` when nil (payload skipped) and as
`0x01` followed by the field's payload when non-nil.  (A nil non-optional
interface-kind field is not rejected here: it is handed to
`encodeInterface`, which can succeed — see the counterexample.) -/
theorem C4_struct_nullable_fields (env : EncEnv) (fo : FieldOptions) (fv : Value)
    (rest : List (FieldOptions × Value)) (hskip : fo.skip = false) :
    (fv.isNil = true → fo.optional = false → fv.isIfaceKind = false → fv.isSliceKind = false →
      encodeStructFieldsLoop env ((fo, fv) :: rest) = encFail EncErr.nonOptionalNilField) ∧
    (fv.isNilableKind = true → fo.optional = true → fv.isNil = true →
      encodeStructFieldsLoop env ((fo, fv) :: rest) =
        (encOk [0]).seq (encodeStructFieldsLoop env rest)) ∧
    (fv.isNilableKind = true → fo.optional = true → fv.isNil = false →
      encodeStructFieldsLoop env ((fo, fv) :: rest) =
        (encOk [1]).seq ((encodeStructField env fv fo).seq (encodeStructFieldsLoop env rest))) := by
  refine ⟨?_, ?_, ?_⟩
  · intro h1 h2 h3 h4
    rw [encodeStructFieldsLoop]
    simp [hskip, isNil_imp_nilable fv h1, h1, h2, h3, h4]
  · intro h1 h2 h3
    rw [encodeStructFieldsLoop]
    simp [hskip, h1, h2, h3]
  · intro h1 h2 h3
    rw [encodeStructFieldsLoop]
    simp [hskip, h1, h2, h3]

theorem C4_witness :
    encodeStructFieldsLoop ⟨[], false⟩ [(⟨TypeOptions.default, false, false, false⟩,
        Value.vptr none)] = encFail EncErr.nonOptionalNilField ∧
      encodeStructFieldsLoop ⟨[], false⟩ [(⟨TypeOptions.default, false, true, false⟩,
        Value.vptr none)] =
        (encOk [0]).seq (encodeStructFieldsLoop ⟨[], false⟩ []) :=
  ⟨(C4_struct_nullable_fields ⟨[], false⟩ ⟨TypeOptions.default, false, false, false⟩
      (Value.vptr none) [] rfl).1 rfl rfl rfl rfl,
    (C4_struct_nullable_fields ⟨[], false⟩ ⟨TypeOptions.default, false, true, false⟩
      (Value.vptr none) [] rfl).2.1 rfl rfl rfl⟩

/-- C4 counterexample: a struct whose only field is a nil, NON-optional
interface-kind field, where the interface (identity 7) is registered as an
enum listing the `None` sentinel at position 0.  The claim says encoding such
a struct fails with an error; the encoder instead succeeds and emits the
sentinel's variant index, the single byte `0x00`. -/
theorem C4_counterexample :
    Marshal ⟨[(7, [noneTypeId])], false⟩
      (some (Value.vstruct [(⟨TypeOptions.default, false, false, false⟩,
        Value.viface 7 none)])) = Except.ok [0] := by
  rw [Marshal]
  simp [Encoder.Encode, encodeValue, encodeStructFieldsLoop, encodeStructField, encodeInterface,
    encodeEnum, getInterfaceEnumVariantIdx, noneTypeId, Value.isNilableKind, Value.isNil,
    Value.isIfaceKind, Value.isSliceKind, TypeOptions.interfaceIsNotEnum, TypeOptions.default,
    List.lookup, List.findIdx?_cons, writeEnumIdxBytes, compactUint64Bytes, toByte,
    encOk, EncOut.seq]

/-! ## C9: the raw-byte fast path agrees with per-element encoding -/

theorem arrayLoop_u8 (env : EncEnv) (elems : List Value)
    (h : ∀ v ∈ elems, ∃ n, v = Value.vuint IntKind.u8 n) :
    encodeArrayLoop env elems TypeOptions.default = encOk (elems.map Value.asByte) := by
  induction elems with
  | nil => simp [encodeArrayLoop]
  | cons v rest ih =>
    obtain ⟨n, rfl⟩ := h v (by simp)
    rw [encodeArrayLoop]
    have hv : encodeValue env (Value.vuint IntKind.u8 n) (some TypeOptions.default) =
        encOk [n % 256] := by
      rw [encodeValue]
      simp only [TypeOptions.isCompactInt, TypeOptions.underlyingType, TypeOptions.default,
        Option.getD_some, Bool.false_eq_true, if_false, encodeUint, encodeUintNatural, natLE]
      rw [show List.range 1 = [0] from rfl]
      simp [encOk]
    rw [hv, ih (fun w hw => h w (by simp [hw]))]
    simp [EncOut.seq, encOk, Value.asByte]

/-- C9: for a slice or array of `uint8` elements with no type customizations
and no as-byte-array option, the fast path emitting the raw buffer in one
write (taken whenever the value is a slice or an addressable array) produces
exactly the bytes of encoding each element individually; for slices the
ULEB128 length prefix precedes them. -/
theorem C9_u8_fast_path (env : EncEnv) (elems : List Value) (isSlice canAddr : Bool)
    (h : ∀ v ∈ elems, ∃ n, v = Value.vuint IntKind.u8 n) :
    encodeArray env ElemKind.u8 isSlice canAddr elems (false, TypeOptions.default) =
      encodeArrayLoop env elems TypeOptions.default ∧
    encodeSlice env ElemKind.u8 (some elems) 0 (false, TypeOptions.default) =
      (encOk (writeLenBytes elems.length)).seq (encodeArrayLoop env elems TypeOptions.default) := by
  have harr : ∀ s c : Bool, encodeArray env ElemKind.u8 s c elems (false, TypeOptions.default) =
      encodeArrayLoop env elems TypeOptions.default := by
    intro s c
    rw [encodeArray]
    by_cases hsc : (s || c) = true
    · simp [ElemKind.hasCustomizations, hsc, arrayLoop_u8 env elems h]
    · simp [hsc]
  refine ⟨harr isSlice canAddr, ?_⟩
  rw [encodeSlice]
  simp only [sliceLenCheck, Option.getD_some]
  rw [harr true true]

theorem C9_witness :
    encodeArray ⟨[], false⟩ ElemKind.u8 true false
        [Value.vuint IntKind.u8 42, Value.vuint IntKind.u8 43] (false, TypeOptions.default) =
      encodeArrayLoop ⟨[], false⟩ [Value.vuint IntKind.u8 42, Value.vuint IntKind.u8 43]
        TypeOptions.default :=
  (C9_u8_fast_path ⟨[], false⟩ [Value.vuint IntKind.u8 42, Value.vuint IntKind.u8 43] true false
    (by
      intro v hv
      simp only [List.mem_cons, List.not_mem_nil, or_false] at hv
      rcases hv with rfl | rfl
      · exact ⟨42, rfl⟩
      · exact ⟨43, rfl⟩)).1

/-! ## C7: RegisterEnumType -/

theorem checkVariants_ok (enumT : RType) (l : List (Option RType))
    (h : ∀ ot ∈ l, ∃ t, ot = some t ∧ t.isInterface = false ∧ t.impls.contains enumT.id = true) :
    checkVariants enumT l = .ok (l.filterMap id) := by
  induction l with
  | nil => rfl
  | cons ot rest ih =>
    obtain ⟨t, rfl, hti, htc⟩ := h ot (by simp)
    rw [checkVariants, if_neg (by simp [hti]), if_neg (by simpa using htc),
      ih (fun o ho => h o (by simp [ho]))]
    rfl

theorem checkVariants_bad (enumT : RType) (l : List (Option RType))
    (h : ∃ ot ∈ l, ot = none ∨ ∃ t, ot = some t ∧
      (t.isInterface = true ∨ t.impls.contains enumT.id = false)) :
    ∃ e, checkVariants enumT l = .error e := by
  induction l with
  | nil => simp at h
  | cons ot rest ih =>
    cases ot with
    | none => exact ⟨RegErr.nilVariantValue, rfl⟩
    | some t =>
      by_cases hti : t.isInterface = true
      · exact ⟨RegErr.variantIsInterface, by rw [checkVariants]; simp [hti]⟩
      · by_cases htc : t.impls.contains enumT.id = true
        · have hrest : ∃ ot ∈ rest, ot = none ∨ ∃ u, ot = some u ∧
              (u.isInterface = true ∨ u.impls.contains enumT.id = false) := by
            rcases h with ⟨o, ho, hbad⟩
            rcases List.mem_cons.1 ho with rfl | ho2
            · rcases hbad with hnone | ⟨u, hu, hbadu⟩
              · cases hnone
              · injection hu with hu2
                subst hu2
                rcases hbadu with h1 | h1
                · exact absurd h1 hti
                · rw [htc] at h1; cases h1
            · exact ⟨o, ho2, hbad⟩
          obtain ⟨e, he⟩ := ih hrest
          refine ⟨e, ?_⟩
          rw [checkVariants, if_neg (by simp [hti]), if_neg (by simpa using htc), he]
          rfl
        · refine ⟨RegErr.variantDoesNotImplement, ?_⟩
          rw [checkVariants, if_neg (by simp [hti]), if_pos (by simpa using htc)]

theorem lookup_append_self (reg : List (Nat × List RType)) (k : Nat) (vs : List RType)
    (h : reg.lookup k = none) : (reg ++ [(k, vs)]).lookup k = some vs := by
  induction reg with
  | nil => simp [List.lookup]
  | cons p rest ih =>
    rw [List.cons_append, List.lookup]
    rw [List.lookup] at h
    by_cases hk : (k == p.1) = true
    · rw [hk] at h
      simp at h
    · have hkf : (k == p.1) = false := by revert hk; cases k == p.1 <;> simp
      rw [hkf] at h ⊢
      simp only []
      exact ih h

theorem findIdx_distinct (l : List Nat) (hd : l.Pairwise (· ≠ ·)) :
    ∀ j (hj : j < l.length) i, List.findIdx? (fun t => t == l[j]) l i = some (i + j) := by
  induction l with
  | nil => intro j hj; simp at hj
  | cons a rest ih =>
    rcases List.pairwise_cons.1 hd with ⟨ha, hrest⟩
    intro j hj i
    cases j with
    | zero => simp [List.findIdx?_cons]
    | succ k =>
      have hk : k < rest.length := by simpa using hj
      have hne : a ≠ rest[k] := ha rest[k] (List.getElem_mem hk)
      have hbeq : (a == (a :: rest)[k + 1]) = false := by
        simp only [List.getElem_cons_succ]
        exact beq_eq_false_iff_ne.2 hne
      rw [List.findIdx?_cons, hbeq]
      simp only [Bool.false_eq_true, if_false]
      have := ih hrest k hk (i + 1)
      simp only [List.getElem_cons_succ]
      rw [this]
      congr 1
      omega

/-- C7: `RegisterEnumType` panics when the enum type parameter is not an
interface; it panics when any variant argument is an interface type or does
not implement the enum interface (or is a nil value); it panics when the enum
type is already registered; on success it appends the variants in argument
order, so that a registered variant's position in the list — the wire index
used by `getInterfaceEnumVariantIdx` — is its argument position. -/
theorem C7_register_enum_type (reg : List (Nat × List RType)) (enumT : RType)
    (variant : Option RType) (variants : List (Option RType)) :
    (enumT.isInterface = false →
      RegisterEnumType reg enumT variant variants = .error RegErr.enumTypeNotInterface) ∧
    ((∃ ot ∈ variant :: variants, ot = none ∨ ∃ t, ot = some t ∧
        (t.isInterface = true ∨ t.impls.contains enumT.id = false)) →
      ∃ e, RegisterEnumType reg enumT variant variants = .error e) ∧
    ((reg.lookup enumT.id).isSome = true →
      ∃ e, RegisterEnumType reg enumT variant variants = .error e) ∧
    (enumT.isInterface = true →
      (∀ ot ∈ variant :: variants, ∃ t, ot = some t ∧ t.isInterface = false ∧
        t.impls.contains enumT.id = true) →
      reg.lookup enumT.id = none →
      RegisterEnumType reg enumT variant variants =
        .ok (reg ++ [(enumT.id, (variant :: variants).filterMap id)]) ∧
      (reg ++ [(enumT.id, (variant :: variants).filterMap id)]).lookup enumT.id =
        some ((variant :: variants).filterMap id)) ∧
    (∀ (ts : List Nat) (w : Value) (j : Nat) (hj : j < ts.length), ts.Pairwise (· ≠ ·) →
      getInterfaceEnumVariantIdx (some (ts[j], w)) ts = .ok j) := by
  refine ⟨?_, ?_, ?_, ?_, ?_⟩
  · intro h
    rw [RegisterEnumType]
    simp [h]
  · intro h
    by_cases he : enumT.isInterface = true
    · obtain ⟨e, hche⟩ := checkVariants_bad enumT (variant :: variants) h
      refine ⟨e, ?_⟩
      rw [RegisterEnumType]
      simp [he, hche]
    · refine ⟨RegErr.enumTypeNotInterface, ?_⟩
      rw [RegisterEnumType]
      simp [he]
  · intro h
    by_cases he : enumT.isInterface = true
    · rw [RegisterEnumType]
      simp only [he, Bool.not_true, Bool.false_eq_true, if_false]
      cases hcv : checkVariants enumT (variant :: variants) with
      | error e => exact ⟨e, rfl⟩
      | ok ts =>
        refine ⟨RegErr.alreadyRegistered, ?_⟩
        simp [h]
    · refine ⟨RegErr.enumTypeNotInterface, ?_⟩
      rw [RegisterEnumType]
      simp [he]
  · intro he hall hnone
    have hcv := checkVariants_ok enumT (variant :: variants) hall
    constructor
    · rw [RegisterEnumType]
      simp [he, hcv, hnone]
    · exact lookup_append_self reg enumT.id _ hnone
  · intro ts w j hj hd
    rw [getInterfaceEnumVariantIdx]
    simp only []
    rw [show (List.findIdx? (· == ts[j]) ts) = List.findIdx? (fun t => t == ts[j]) ts from rfl]
    rw [findIdx_distinct ts hd j hj 0]
    simp

theorem C7_witness :
    RegisterEnumType [] ⟨9, true, []⟩ (some ⟨1, false, [9]⟩) [some ⟨2, false, [9]⟩] =
        .ok [(9, [⟨1, false, [9]⟩, ⟨2, false, [9]⟩])] ∧
      getInterfaceEnumVariantIdx (some (2, Value.vbool true)) [1, 2] = .ok 1 := by
  constructor
  · exact ((C7_register_enum_type [] ⟨9, true, []⟩ (some ⟨1, false, [9]⟩)
      [some ⟨2, false, [9]⟩]).2.2.2.1 rfl
      (by
        intro ot hot
        simp only [List.mem_cons, List.not_mem_nil, or_false] at hot
        rcases hot with rfl | rfl
        · exact ⟨⟨1, false, [9]⟩, rfl, rfl, rfl⟩
        · exact ⟨⟨2, false, [9]⟩, rfl, rfl, rfl⟩) rfl).1
  · have h := (C7_register_enum_type [] ⟨9, true, []⟩ none []).2.2.2.2 [1, 2]
      (Value.vbool true) 1 (by norm_num) (by norm_num)
    simpa using h

/-! ## C8: underlying integer width conversion (corrected) -/

theorem cen2_spec (fromK toK : IntKind) (v : Int)
    (hiff : goCast fromK (goCast toK v) = v ↔ fitsCond fromK toK v) :
    (convertEncodeNumber2 fromK v toK = encOk (kindLE toK (goCast toK v)) ↔
      fitsCond fromK toK v) ∧
    (¬ fitsCond fromK toK v →
      convertEncodeNumber2 fromK v toK = encFail EncErr.valueOutOfRange) := by
  by_cases hf : fitsCond fromK toK v
  · have heq : goCast fromK (goCast toK v) = v := hiff.2 hf
    simp [convertEncodeNumber2, heq, hf]
  · have hne : goCast fromK (goCast toK v) ≠ v := fun he => hf (hiff.1 he)
    have hval : convertEncodeNumber2 fromK v toK = encFail EncErr.valueOutOfRange := by
      simp [convertEncodeNumber2, hne]
    refine ⟨?_, fun _ => hval⟩
    rw [hval]
    constructor
    · intro habs
      exact absurd (congrArg EncOut.err habs) (by simp [encFail, encOk])
    · intro habs
      exact absurd habs hf

theorem roundTrip_iff_i64 (toK : IntKind) (v : Int) (h1 : -(2 ^ 63) ≤ v) (h2 : v < 2 ^ 63) :
    goCast IntKind.i64 (goCast toK v) = v ↔ fitsCond IntKind.i64 toK v := by
  cases toK <;>
    simp only [goCast, fitsCond, IntKind.signed, IntKind.width, if_true, if_false, reduceIte] <;>
    norm_num <;> omega

theorem roundTrip_iff_u64 (toK : IntKind) (v : Int) (h1 : 0 ≤ v) (h2 : v < 2 ^ 64) :
    goCast IntKind.u64 (goCast toK v) = v ↔ fitsCond IntKind.u64 toK v := by
  cases toK <;>
    simp only [goCast, fitsCond, IntKind.signed, IntKind.width, if_true, if_false, reduceIte] <;>
    norm_num <;> omega

theorem convertEncodeNumber_eq_cen2 (fromK : IntKind) (v : Int) (et : IntKind) :
    convertEncodeNumber fromK v et = convertEncodeNumber2 fromK v et := by
  cases et <;> rfl

/-- C8 (amended): with an underlying kind `et` different from the value's
kind, `encodeInt`/`encodeUint` delegate to `convertEncodeNumber2`, which
emits the converted value (at the target's width, little-endian) if and only
if converting back to the source's 64-bit kind restores the value — a
condition characterized arithmetically by `fitsCond`: a 64-bit target of
either signedness accepts every value, a narrower signed target from an
unsigned source also accepts the values within `2^(w-1)` of `2^64`, and
otherwise exactly the values in the target's range are accepted; everything
else is an encode error. -/
theorem C8_underlying_int_conversion (v : Int) (n : Nat) (toK : IntKind) :
    (∀ k, toK ≠ k → encodeInt k v (some toK) = convertEncodeNumber2 IntKind.i64 v toK) ∧
    (∀ k, toK ≠ k → encodeUint k n (some toK) = convertEncodeNumber2 IntKind.u64 (n : Int) toK) ∧
    (-(2 ^ 63) ≤ v → v < 2 ^ 63 →
      (convertEncodeNumber2 IntKind.i64 v toK = encOk (kindLE toK (goCast toK v)) ↔
        fitsCond IntKind.i64 toK v) ∧
      (¬ fitsCond IntKind.i64 toK v →
        convertEncodeNumber2 IntKind.i64 v toK = encFail EncErr.valueOutOfRange)) ∧
    ((n : Int) < 2 ^ 64 →
      (convertEncodeNumber2 IntKind.u64 (n : Int) toK =
          encOk (kindLE toK (goCast toK (n : Int))) ↔ fitsCond IntKind.u64 toK (n : Int)) ∧
      (¬ fitsCond IntKind.u64 toK (n : Int) →
        convertEncodeNumber2 IntKind.u64 (n : Int) toK = encFail EncErr.valueOutOfRange)) := by
  refine ⟨?_, ?_, ?_, ?_⟩
  · intro k hk
    rw [encodeInt, if_pos hk]
    exact convertEncodeNumber_eq_cen2 IntKind.i64 v toK
  · intro k hk
    rw [encodeUint, if_pos hk]
    exact convertEncodeNumber_eq_cen2 IntKind.u64 (n : Int) toK
  · intro h1 h2
    exact cen2_spec IntKind.i64 toK v (roundTrip_iff_i64 toK v h1 h2)
  · intro h2
    exact cen2_spec IntKind.u64 toK (n : Int)
      (roundTrip_iff_u64 toK (n : Int) (by positivity) h2)

theorem C8_witness :
    encodeInt IntKind.i64 300 (some IntKind.u8) = encFail EncErr.valueOutOfRange := by
  have h := C8_underlying_int_conversion 300 0 IntKind.u8
  rw [h.1 IntKind.i64 (by decide)]
  exact (h.2.2.1 (by norm_num) (by norm_num)).2
    (by rw [fitsCond]; norm_num [IntKind.width, IntKind.signed])

/-- C8 counterexample: `uint64` value `2^64 − 1` with underlying kind `int8`.
The value does not fit in 8 bits (`2^64 − 1 ≥ 2^7`), yet the encoder emits it
as the single byte `0xFF`, because the Go round-trip
`uint64(int8(v)) == v` succeeds by sign extension — refuting the claim's
"a value that does not fit losslessly in the target width is an encode
error". -/
theorem C8_counterexample :
    encodeUint IntKind.u64 (2 ^ 64 - 1) (some IntKind.i8) = encOk [0xFF] ∧
      ¬ (((2 : Int) ^ 64 - 1) < 2 ^ 7) := by
  constructor
  · decide
  · norm_num

/-! ## C1: canonical map-entry ordering -/

theorem bc_eq_iff : ∀ a b : List Nat, bytesCompare a b = Ordering.eq ↔ a = b := by
  intro a
  induction a with
  | nil =>
    intro b
    cases b <;> simp [bytesCompare]
  | cons x as ih =>
    intro b
    cases b with
    | nil => simp [bytesCompare]
    | cons y bs =>
      rw [bytesCompare]
      by_cases h1 : x < y
      · rw [if_pos h1]
        constructor
        · intro h; cases h
        · intro h
          injection h with h2 h3
          omega
      · by_cases h2 : y < x
        · rw [if_neg h1, if_pos h2]
          constructor
          · intro h; cases h
          · intro h
            injection h with h3 h4
            omega
        · have hxy : x = y := by omega
          subst hxy
          rw [if_neg h1, if_neg h2, ih bs]
          simp

theorem bc_gt_iff_lt : ∀ a b : List Nat, bytesCompare a b = Ordering.gt ↔
    bytesCompare b a = Ordering.lt := by
  intro a
  induction a with
  | nil =>
    intro b
    cases b <;> simp [bytesCompare]
  | cons x as ih =>
    intro b
    cases b with
    | nil => simp [bytesCompare]
    | cons y bs =>
      rw [bytesCompare, bytesCompare]
      rcases Nat.lt_trichotomy x y with h | h | h
      · rw [if_pos h, if_neg (by omega), if_pos h]
        simp
      · subst h
        rw [if_neg (by omega), if_neg (by omega), if_neg (by omega), if_neg (by omega)]
        exact ih bs
      · rw [if_neg (by omega), if_pos h, if_pos h]
        simp

theorem bc_lt_trans : ∀ a b c : List Nat, bytesCompare a b = Ordering.lt →
    bytesCompare b c = Ordering.lt → bytesCompare a c = Ordering.lt := by
  intro a
  induction a with
  | nil =>
    intro b c hab hbc
    cases b with
    | nil => simp [bytesCompare] at hab
    | cons y bs =>
      cases c with
      | nil => rw [bytesCompare] at hbc; cases hbc
      | cons z cs => simp [bytesCompare]
  | cons x as ih =>
    intro b c hab hbc
    cases b with
    | nil => rw [bytesCompare] at hab; cases hab
    | cons y bs =>
      cases c with
      | nil => rw [bytesCompare] at hbc; cases hbc
      | cons z cs =>
        rw [bytesCompare] at hab hbc ⊢
        by_cases h1 : x < y
        · by_cases h2 : y < z
          · rw [if_pos (by omega)]
          · by_cases h3 : z < y
            · rw [if_neg h2, if_pos h3] at hbc; cases hbc
            · have : y = z := by omega
              subst this
              rw [if_pos h1]
        · by_cases h4 : y < x
          · rw [if_neg h1, if_pos h4] at hab; cases hab
          · have hxy : x = y := by omega
            subst hxy
            rw [if_neg h1, if_neg h4] at hab
            by_cases h2 : x < z
            · rw [if_pos h2]
            · by_cases h3 : z < x
              · rw [if_neg h2, if_pos h3] at hbc; cases hbc
              · have : x = z := by omega
                subst this
                rw [if_neg h2, if_neg h3] at hbc ⊢
                exact ih bs cs hab hbc

theorem pairKeyLE_total : ∀ p q : List Nat × Nat, pairKeyLE p q ∨ pairKeyLE q p := by
  intro p q
  by_cases h : bytesCompare p.1 q.1 = Ordering.gt
  · right
    rw [pairKeyLE, (bc_gt_iff_lt p.1 q.1).1 h]
    simp
  · left
    exact h

theorem pairKeyLE_trans : ∀ p q r : List Nat × Nat, pairKeyLE p q → pairKeyLE q r →
    pairKeyLE p r := by
  intro p q r hpq hqr habs
  rw [pairKeyLE] at hpq hqr
  have hlt := (bc_gt_iff_lt p.1 r.1).1 habs
  rcases ho1 : bytesCompare p.1 q.1 with h | h | h
  · rcases ho2 : bytesCompare q.1 r.1 with g | g | g
    · have := bc_lt_trans p.1 q.1 r.1 ho1 ho2
      rw [habs] at this; cases this
    · have hq := (bc_eq_iff q.1 r.1).1 ho2
      rw [hq] at ho1
      rw [habs] at ho1; cases ho1
    · exact hqr ho2
  · have hp := (bc_eq_iff p.1 q.1).1 ho1
    rw [← hp] at hqr
    exact hqr habs
  · exact hpq ho1

theorem mem_enum_lookup {α : Type} (l : List α) (x : Nat × α) (h : x ∈ l.enumFrom 0) :
    l[x.1]? = some x.2 :=
  List.mem_enum_iff_getElem?.1 h

theorem keysLoop_eq (env : EncEnv) (ko : TypeOptions) :
    ∀ (entries : List (Value × Value)) (i : Nat),
      (∀ p ∈ entries, (encodeValue env p.1 (some ko)).err = none) →
      encodeMapKeysLoop env entries ko i =
        .ok ((entries.enumFrom i).map fun x => ((encodeValue env x.2.1 (some ko)).bytes, x.1)) := by
  intro entries
  induction entries with
  | nil => intro i h; rw [encodeMapKeysLoop]; rfl
  | cons e rest ih =>
    intro i h
    have hke := h e (by simp)
    rw [encodeMapKeysLoop]
    simp only [hke]
    rw [ih (i + 1) (fun p hp => h p (by simp [hp]))]
    simp [List.enumFrom]

theorem emitLoop_eq (env : EncEnv) (vo : TypeOptions) (entries : List (Value × Value)) :
    ∀ (ps : List (List Nat × Nat)),
      (∀ p ∈ ps, ∃ kv, entries[p.2]? = some kv ∧ (encodeValue env kv.2 (some vo)).err = none) →
      encodeMapEmitLoop env entries ps vo =
        encOk ((ps.map fun p =>
          p.1 ++ (entries[p.2]?).elim [] fun kv => (encodeValue env kv.2 (some vo)).bytes).flatten) := by
  intro ps
  induction ps with
  | nil => intro h; rw [encodeMapEmitLoop]; rfl
  | cons p rest ih =>
    intro h
    obtain ⟨kv, heq, herr⟩ := h p (by simp)
    rw [encodeMapEmitLoop]
    split
    · next hnone => rw [heq] at hnone; cases hnone
    · next kv2 hsome =>
      rw [heq] at hsome
      injection hsome with hkv
      subst hkv
      rw [ih (fun q hq => h q (by simp [hq]))]
      have hout : (encodeValue env kv.2 (some vo)) =
          ⟨(encodeValue env kv.2 (some vo)).bytes, none⟩ := by
        rw [← herr]
      simp only [List.map_cons, List.flatten_cons, heq, Option.elim_some]
      rw [EncOut.seq, EncOut.seq]
      simp only [encOk, Option.isSome_none]
      rw [hout]
      simp

theorem encodeMap_ok_branch (env : EncEnv) (es : List (Value × Value)) (ko vo : TypeOptions)
    (pairs : List (List Nat × Nat)) (h : encodeMapKeysLoop env es ko 0 = .ok pairs) :
    encodeMap env (some es) 0 ko vo =
      (encOk (writeLenBytes es.length)).seq
        (encodeMapEmitLoop env es (sortPairs pairs) vo) := by
  rw [encodeMap]
  simp only [mapLenCheck]
  rw [h]

theorem encodeMap_shape (env : EncEnv) (ko vo : TypeOptions) (l : List (Value × Value))
    (hk : ∀ p ∈ l, (encodeValue env p.1 (some ko)).err = none)
    (hv : ∀ p ∈ l, (encodeValue env p.2 (some vo)).err = none) :
    l.Perm ((List.insertionSort (enumKeyLE env ko) (l.enumFrom 0)).map Prod.snd) ∧
    ((List.insertionSort (enumKeyLE env ko) (l.enumFrom 0)).map Prod.snd).Pairwise
      (fun p q => bytesCompare (encodeValue env p.1 (some ko)).bytes
        (encodeValue env q.1 (some ko)).bytes ≠ Ordering.gt) ∧
    encodeMap env (some l) 0 ko vo =
      encOk (writeLenBytes l.length ++
        (((List.insertionSort (enumKeyLE env ko) (l.enumFrom 0)).map Prod.snd).map fun p =>
          (encodeValue env p.1 (some ko)).bytes ++
            (encodeValue env p.2 (some vo)).bytes).flatten) := by
  haveI : IsTotal (Nat × (Value × Value)) (enumKeyLE env ko) :=
    ⟨fun x y => pairKeyLE_total _ _⟩
  haveI : IsTrans (Nat × (Value × Value)) (enumKeyLE env ko) :=
    ⟨fun x y z => pairKeyLE_trans _ _ _⟩
  have hperm0 : (List.insertionSort (enumKeyLE env ko) (l.enumFrom 0)).Perm (l.enumFrom 0) :=
    List.perm_insertionSort _ _
  refine ⟨?_, ?_, ?_⟩
  · have hpermSnd := hperm0.map Prod.snd
    have henum : (l.enumFrom 0).map Prod.snd = l := List.enum_map_snd l
    rw [henum] at hpermSnd
    exact hpermSnd.symm
  · exact List.pairwise_map.2 (List.sorted_insertionSort (enumKeyLE env ko) (l.enumFrom 0))
  · rw [encodeMap_ok_branch env l ko vo _ (keysLoop_eq env ko l 0 hk)]
    have hsort : sortPairs ((l.enumFrom 0).map fun x =>
          ((encodeValue env x.2.1 (some ko)).bytes, x.1)) =
        (List.insertionSort (enumKeyLE env ko) (l.enumFrom 0)).map fun x =>
          ((encodeValue env x.2.1 (some ko)).bytes, x.1) :=
      (List.map_insertionSort (enumKeyLE env ko) pairKeyLE _ _ (fun a _ b _ => Iff.rfl)).symm
    rw [hsort]
    have hps : ∀ p ∈ (List.insertionSort (enumKeyLE env ko) (l.enumFrom 0)).map fun x =>
          ((encodeValue env x.2.1 (some ko)).bytes, x.1),
        ∃ kv, l[p.2]? = some kv ∧ (encodeValue env kv.2 (some vo)).err = none := by
      intro p hp
      obtain ⟨x, hx, rfl⟩ := List.mem_map.1 hp
      have hlook := mem_enum_lookup l x (hperm0.subset hx)
      refine ⟨x.2, hlook, ?_⟩
      obtain ⟨hlt, hget⟩ := List.getElem?_eq_some.1 hlook
      exact hv x.2 (hget ▸ List.getElem_mem hlt)
    rw [emitLoop_eq env vo l _ hps]
    have hmaps : (((List.insertionSort (enumKeyLE env ko) (l.enumFrom 0)).map fun x =>
          ((encodeValue env x.2.1 (some ko)).bytes, x.1)).map fun p =>
          p.1 ++ (l[p.2]?).elim [] fun kv => (encodeValue env kv.2 (some vo)).bytes) =
        ((List.insertionSort (enumKeyLE env ko) (l.enumFrom 0)).map Prod.snd).map fun p =>
          (encodeValue env p.1 (some ko)).bytes ++ (encodeValue env p.2 (some vo)).bytes := by
      rw [List.map_map, List.map_map]
      apply List.map_congr_left
      intro x hx
      have hlook := mem_enum_lookup l x (hperm0.subset hx)
      simp only [Function.comp_def]
      rw [hlook]
      simp
    rw [hmaps]
    simp [EncOut.seq, encOk]

/-- C1: for every map value (with keys whose encodings succeed and are
pairwise distinct, and values whose encodings succeed), the encoder emits the
ULEB128 length followed by the (encoded key, encoded value) blocks sorted
strictly ascending by lexicographic byte comparison of the encoded key bytes;
consequently any two insertion orders of the same entries produce identical
output. -/
theorem C1_map_canonical_order (env : EncEnv) (ko vo : TypeOptions)
    (entries entries2 : List (Value × Value)) (hperm : entries.Perm entries2)
    (hkeys : ∀ p ∈ entries, (encodeValue env p.1 (some ko)).err = none)
    (hvals : ∀ p ∈ entries, (encodeValue env p.2 (some vo)).err = none)
    (hdk : entries.Pairwise fun p q =>
      (encodeValue env p.1 (some ko)).bytes ≠ (encodeValue env q.1 (some ko)).bytes) :
    (∃ es, entries.Perm es ∧
      (es.Pairwise fun p q => bytesCompare (encodeValue env p.1 (some ko)).bytes
        (encodeValue env q.1 (some ko)).bytes = Ordering.lt) ∧
      encodeMap env (some entries) 0 ko vo =
        encOk (writeLenBytes entries.length ++
          (es.map fun p => (encodeValue env p.1 (some ko)).bytes ++
            (encodeValue env p.2 (some vo)).bytes).flatten)) ∧
    encodeMap env (some entries) 0 ko vo = encodeMap env (some entries2) 0 ko vo := by
  have hsymm : ∀ {p q : Value × Value},
      (encodeValue env p.1 (some ko)).bytes ≠ (encodeValue env q.1 (some ko)).bytes →
      (encodeValue env q.1 (some ko)).bytes ≠ (encodeValue env p.1 (some ko)).bytes :=
    fun h => h.symm
  have strict : ∀ (l : List (Value × Value)),
      (l.Pairwise fun p q => bytesCompare (encodeValue env p.1 (some ko)).bytes
        (encodeValue env q.1 (some ko)).bytes ≠ Ordering.gt) →
      (l.Pairwise fun p q =>
        (encodeValue env p.1 (some ko)).bytes ≠ (encodeValue env q.1 (some ko)).bytes) →
      l.Pairwise fun p q => bytesCompare (encodeValue env p.1 (some ko)).bytes
        (encodeValue env q.1 (some ko)).bytes = Ordering.lt := by
    intro l hle hne
    refine (hle.and hne).imp ?_
    rintro p q ⟨h1, h2⟩
    rcases ho : bytesCompare (encodeValue env p.1 (some ko)).bytes
        (encodeValue env q.1 (some ko)).bytes with h | h | h
    · rfl
    · exact absurd (bc_eq_iff _ _ |>.1 ho) h2
    · exact absurd ho h1
  obtain ⟨hp1, hs1, he1⟩ := encodeMap_shape env ko vo entries hkeys hvals
  have hd1 : ((List.insertionSort (enumKeyLE env ko) (entries.enumFrom 0)).map
      Prod.snd).Pairwise fun p q =>
      (encodeValue env p.1 (some ko)).bytes ≠ (encodeValue env q.1 (some ko)).bytes :=
    (hp1.pairwise_iff hsymm).1 hdk
  have hstrict1 := strict _ hs1 hd1
  refine ⟨⟨_, hp1, hstrict1, he1⟩, ?_⟩
  have hkeys2 : ∀ p ∈ entries2, (encodeValue env p.1 (some ko)).err = none :=
    fun p hp => hkeys p (hperm.mem_iff.2 hp)
  have hvals2 : ∀ p ∈ entries2, (encodeValue env p.2 (some vo)).err = none :=
    fun p hp => hvals p (hperm.mem_iff.2 hp)
  obtain ⟨hp2, hs2, he2⟩ := encodeMap_shape env ko vo entries2 hkeys2 hvals2
  have hd2 : ((List.insertionSort (enumKeyLE env ko) (entries2.enumFrom 0)).map
      Prod.snd).Pairwise fun p q =>
      (encodeValue env p.1 (some ko)).bytes ≠ (encodeValue env q.1 (some ko)).bytes :=
    (hp2.pairwise_iff hsymm).1 ((hperm.pairwise_iff hsymm).1 hdk)
  have hstrict2 := strict _ hs2 hd2
  haveI : IsAntisymm (Value × Value) (fun p q =>
      bytesCompare (encodeValue env p.1 (some ko)).bytes
        (encodeValue env q.1 (some ko)).bytes = Ordering.lt) := by
    refine ⟨fun p q hpq hqp => ?_⟩
    have := (bc_gt_iff_lt (encodeValue env p.1 (some ko)).bytes
      (encodeValue env q.1 (some ko)).bytes).2 hqp
    rw [hpq] at this
    cases this
  have heq : (List.insertionSort (enumKeyLE env ko) (entries.enumFrom 0)).map Prod.snd =
      (List.insertionSort (enumKeyLE env ko) (entries2.enumFrom 0)).map Prod.snd :=
    List.eq_of_perm_of_sorted (hp1.symm.trans (hperm.trans hp2)) hstrict1 hstrict2
  rw [he1, he2, heq, hperm.length_eq]

theorem C1_witness :
    encodeMap ⟨[], false⟩ (some [(Value.vbool false, Value.vuint IntKind.u8 1),
        (Value.vbool true, Value.vuint IntKind.u8 2)]) 0 TypeOptions.default TypeOptions.default =
      encodeMap ⟨[], false⟩ (some [(Value.vbool true, Value.vuint IntKind.u8 2),
        (Value.vbool false, Value.vuint IntKind.u8 1)]) 0 TypeOptions.default
        TypeOptions.default := by
  have hbf : encodeValue ⟨[], false⟩ (Value.vbool false) (some TypeOptions.default) =
      encOk [0] := by
    rw [encodeValue]; rfl
  have hbt : encodeValue ⟨[], false⟩ (Value.vbool true) (some TypeOptions.default) =
      encOk [1] := by
    rw [encodeValue]; rfl
  have hu : ∀ n : Nat, encodeValue ⟨[], false⟩ (Value.vuint IntKind.u8 n)
      (some TypeOptions.default) = encOk [n % 256] := by
    intro n
    rw [encodeValue]
    simp only [TypeOptions.isCompactInt, TypeOptions.underlyingType, TypeOptions.default,
      Option.getD_some, Bool.false_eq_true, if_false, encodeUint, encodeUintNatural, natLE]
    rw [show List.range 1 = [0] from rfl]
    simp [encOk]
  refine (C1_map_canonical_order ⟨[], false⟩ TypeOptions.default TypeOptions.default
    [(Value.vbool false, Value.vuint IntKind.u8 1), (Value.vbool true, Value.vuint IntKind.u8 2)]
    [(Value.vbool true, Value.vuint IntKind.u8 2), (Value.vbool false, Value.vuint IntKind.u8 1)]
    (List.Perm.swap (Value.vbool true, Value.vuint IntKind.u8 2)
      (Value.vbool false, Value.vuint IntKind.u8 1) []) ?_ ?_ ?_).2
  · intro p hp
    simp only [List.mem_cons, List.not_mem_nil, or_false] at hp
    rcases hp with rfl | rfl
    · rw [hbf]; rfl
    · rw [hbt]; rfl
  · intro p hp
    simp only [List.mem_cons, List.not_mem_nil, or_false] at hp
    rcases hp with rfl | rfl
    · rw [hu]; rfl
    · rw [hu]; rfl
  · refine List.pairwise_cons.2 ⟨?_, List.pairwise_singleton _ _⟩
    intro q hq
    simp only [List.mem_cons, List.not_mem_nil, or_false] at hq
    subst hq
    rw [hbf, hbt]
    simp [encOk]
